import Mathlib

/-!
A shallow embedding of the openr `KvStoreClientInternal` client
(`src/openr/kvstore/KvStoreClientInternal.cpp`) and proofs about its
reconciliation, persistence, advertise and TTL-refresh logic.

The per-area tables of the client are embedded as follows, trading C++
`unordered_map` containers for association lists where the code iterates
over them and for finite-support functions where it only looks keys up:

  * `persistedKeyVals_` : `Area → Key → Option Value` (lookup / point update);
  * `backoffs_`         : `Area → Key → Option ExponentialBackoff`;
  * `keyTtlBackoffs_`   : association list (iterated by `advertiseTtlUpdates`);
  * `keysToAdvertise_`  : association list (iterated by `advertisePendingKeys`).

Store RPCs (`getKvStoreKeyVals` / `setKvStoreKeyVals`) are oracles in an
`Env`; callback invocations and store calls are recorded as a trace of
`Event`s.  C++ `CHECK` / `.at` aborts are modelled with `Except Abort`.
Thrift `version` / `ttlVersion` are `i64` in the wire schema and are only
ever incremented one step at a time from small values, so they are embedded
as `Nat`; `ttl` is an `i64` embedded as `Int`.
-/

namespace Openr

/-- Flooding-scope identifier (`AreaId`). -/
abbrev Area := String

/-- Key within an area. -/
abbrev Key := String

/-- Embedding of `thrift::Value`: version, originatorId, optional payload,
ttl (i64, with the `kTtlInfinity` sentinel), ttlVersion.  The `hash` field
is never read by the client logic modelled here and is omitted. -/
structure Value where
  version : Nat
  originatorId : String
  value : Option String
  ttl : Int
  ttlVersion : Nat
  deriving Repr, DecidableEq

/-- Modelled from the spec: `ExponentialBackoff` is not under `src/`.  The
spec describes it as a pure value with `reportError` (schedules the next
attempt, so a try is not allowed right now), `reportSuccess` (resets) and
`canTryNow` (true when the deadline has elapsed).  Time is abstracted away:
`canTryNowB` records whether the deadline has elapsed at the present
instant. -/
structure ExponentialBackoff where
  initialBackoff : Int
  maxBackoff : Int
  canTryNowB : Bool
  deriving Repr, DecidableEq

/-- Modelled from the spec: a freshly constructed backoff allows an
immediate try. -/
def ExponentialBackoff.mk0 (i m : Int) : ExponentialBackoff :=
  ⟨i, m, true⟩

/-- Modelled from the spec: `reportError` schedules the next attempt. -/
def ExponentialBackoff.reportError (b : ExponentialBackoff) : ExponentialBackoff :=
  { b with canTryNowB := false }

/-- Modelled from the spec: `reportSuccess` resets the backoff. -/
def ExponentialBackoff.reportSuccess (b : ExponentialBackoff) : ExponentialBackoff :=
  { b with canTryNowB := true }

/-- Modelled from the spec: `canTryNow` is true when the deadline elapsed. -/
def ExponentialBackoff.canTryNow (b : ExponentialBackoff) : Bool :=
  b.canTryNowB

/-- Modelled from the spec: the sentinel `TTL_INFINITE`
(`Constants::kTtlInfinity`, `INT32_MIN` in openr) meaning "never expires,
never refresh".  Only its distinguishability matters to the client. -/
def kTtlInfinity : Int := -(2 ^ 31)

/-- Modelled from the spec: `Constants::kInitialBackoff` (4 ms). -/
def kInitialBackoff : Int := 4

/-- Modelled from the spec: `Constants::kMaxBackoff` (8192 ms). -/
def kMaxBackoff : Int := 8192

/-- Association-list lookup (first match), the embedding of
`unordered_map::find`. -/
def alookup {α : Type} : List (String × α) → String → Option α
  | [], _ => none
  | (a, b) :: t, k => if a = k then some b else alookup t k

/-- Association-list insert-or-replace, the embedding of
`unordered_map::operator[] = v`. -/
def ainsert {α : Type} : List (String × α) → String → α → List (String × α)
  | [], k, v => [(k, v)]
  | (a, b) :: t, k, v => if a = k then (k, v) :: t else (a, b) :: ainsert t k v

/-- Association-list erase, the embedding of `unordered_map::erase(key)`. -/
def aerase {α : Type} : List (String × α) → String → List (String × α)
  | [], _ => []
  | (a, b) :: t, k => if a = k then aerase t k else (a, b) :: aerase t k

/-- `unordered_set::erase` on a list representation. -/
def lerase : List Key → Key → List Key
  | [], _ => []
  | k2 :: t, k => if k2 = k then lerase t k else k2 :: lerase t k

/-- `unordered_set::insert` on a list representation: no-op when present. -/
def linsert (l : List Key) (k : Key) : List Key :=
  if l.contains k then l else l ++ [k]

/-- Point update of a two-level lookup function (embeds
`table_[area][key] = v`). -/
def fset {α : Type} (m : Area → Key → Option α) (a : Area) (k : Key) (v : α) :
    Area → Key → Option α :=
  fun a2 k2 => if a2 = a ∧ k2 = k then some v else m a2 k2

/-- Point removal from a two-level lookup function (embeds
`table_[area].erase(key)`). -/
def fdel {α : Type} (m : Area → Key → Option α) (a : Area) (k : Key) :
    Area → Key → Option α :=
  fun a2 k2 => if a2 = a ∧ k2 = k then none else m a2 k2

/-- One TTL-refresh-table entry: the value-less skeleton and its backoff. -/
abbrev TtlEntry := Value × ExponentialBackoff

/-- The mutable state of `KvStoreClientInternal`.  Callback registries only
record whether a callback is installed; the callbacks themselves are opaque
and their invocations are traced as `Event`s. -/
structure ClientState where
  persistedKeyVals : Area → Key → Option Value
  backoffs : Area → Key → Option ExponentialBackoff
  keyTtlBackoffs : List (Area × List (Key × TtlEntry))
  keysToAdvertise : List (Area × List Key)
  keyCallbacks : Area → Key → Bool
  kvCallbackSet : Bool
  filterSet : Bool

/-- Observable events: store RPCs and callback invocations. -/
inductive Event where
  | setKeyVals (area : Area) (keyVals : List (Key × Value))
  | getKeyVals (area : Area) (key : Key)
  | kvCallback (key : Key) (val : Option Value)
  | keyCallback (key : Key) (val : Option Value)
  | filterCallback (key : Key) (val : Value)
  deriving Repr, DecidableEq

/-- Abort causes: the `CHECK(not area.empty())` intake assertion, and
`unordered_map::at` on a missing key in `advertisePendingKeys`. -/
inductive Abort where
  | emptyArea
  | missingEntry
  deriving Repr, DecidableEq

/-- Embedding of `thrift::Publication`. -/
structure Publication where
  area : String
  keyVals : List (Key × Value)
  expiredKeys : List Key
  deriving Repr, DecidableEq

/-- The client's environment: own node identity and the store oracles
(`getKvStoreKeyVals` result per key, `setKvStoreKeyVals` success, and the
prefix-filter predicate `KvStoreFilters::keyMatch`). -/
structure Env where
  nodeId : String
  storeGet : Area → Key → Option Value
  storeSetOk : Area → List (Key × Value) → Bool
  keyMatch : Key → Value → Bool

/-- Pending-advertise set of an area (`keysToAdvertise_[area]`, defaulting
to empty as `operator[]` would). -/
def pendingOf (s : ClientState) (a : Area) : List Key :=
  (alookup s.keysToAdvertise a).getD []

/-- Insert a key into an area's pending-advertise set. -/
def pendingInsert : List (Area × List Key) → Area → Key → List (Area × List Key)
  | [], a, k => [(a, [k])]
  | (a2, l) :: t, a, k =>
    if a2 = a then (a2, linsert l k) :: t else (a2, l) :: pendingInsert t a k

/-- Erase a key from an area's pending-advertise set.  (When the area has
no entry, C++ `operator[]` would create an empty set and erase nothing; the
observable `pendingOf` is the same either way.) -/
def pendingErase : List (Area × List Key) → Area → Key → List (Area × List Key)
  | [], _, _ => []
  | (a2, l) :: t, a, k =>
    if a2 = a then (a2, lerase l k) :: t
    else (a2, l) :: pendingErase t a k

/-- TTL-refresh-table lookup (`keyTtlBackoffs_[area].find(key)`). -/
def ttlLookup (s : ClientState) (a : Area) (k : Key) : Option TtlEntry :=
  alookup ((alookup s.keyTtlBackoffs a).getD []) k

/-- TTL-refresh-table insert-or-replace (`keyTtlBackoffs_[area][key] = v`). -/
def ttlTableInsert :
    List (Area × List (Key × TtlEntry)) → Area → Key → TtlEntry →
    List (Area × List (Key × TtlEntry))
  | [], a, k, v => [(a, [(k, v)])]
  | (a2, es) :: t, a, k, v =>
    if a2 = a then (a2, ainsert es k v) :: t else (a2, es) :: ttlTableInsert t a k v

/-- TTL-refresh-table erase (`keyTtlBackoffs_[area].erase(key)`). -/
def ttlTableErase :
    List (Area × List (Key × TtlEntry)) → Area → Key →
    List (Area × List (Key × TtlEntry))
  | [], _, _ => []
  | (a2, es) :: t, a, k =>
    if a2 = a then (a2, aerase es k) :: t else (a2, es) :: ttlTableErase t a k

/-- Embedding of `setKeysHelper`: nothing to advertise returns success
without a store call; otherwise one `setKvStoreKeyVals` RPC whose success
is the oracle's answer. -/
def setKeysHelper (env : Env) (area : Area) (keyVals : List (Key × Value)) :
    Bool × List Event :=
  if keyVals.isEmpty then (true, [])
  else (env.storeSetOk area keyVals, [Event.setKeyVals area keyVals])

/-- Embedding of `getKey`: one blocking `getKvStoreKeyVals` RPC; `none`
covers both a store failure and a missing key. -/
def getKeyStore (env : Env) (area : Area) (key : Key) :
    Option Value × List Event :=
  (env.storeGet area key, [Event.getKeyVals area key])

/-- Per-area body of the `advertiseTtlUpdates` loop: walk the area's TTL
entries; for each whose backoff allows a try, apply `reportError`, lift the
skeleton's `version`/`ttlVersion` to the persisted record's when the
persisted `version` is newer, bump `ttlVersion`, and collect the skeleton
into the outgoing batch.  Returns the rewritten entry list and the batch. -/
def ttlStepArea (persisted : Key → Option Value) :
    List (Key × TtlEntry) → List (Key × TtlEntry) × List (Key × Value)
  | [] => ([], [])
  | (k, skel, b) :: rest =>
    let r := ttlStepArea persisted rest
    if b.canTryNow then
      let skel1 := match persisted k with
        | some pv =>
          if skel.version < pv.version then
            { skel with version := pv.version, ttlVersion := pv.ttlVersion }
          else skel
        | none => skel
      let skel2 := { skel1 with ttlVersion := skel1.ttlVersion + 1 }
      ((k, skel2, b.reportError) :: r.1, (k, skel2) :: r.2)
    else ((k, skel, b) :: r.1, r.2)

/-- Area loop of `advertiseTtlUpdates`: rewrite every area's TTL entries
with `ttlStepArea` and emit one store call per non-empty batch (its failure
is only logged). -/
def advertiseTtlGo (env : Env) (persisted : Area → Key → Option Value) :
    List (Area × List (Key × TtlEntry)) →
    List (Area × List (Key × TtlEntry)) × List Event
  | [] => ([], [])
  | (area, es) :: rest =>
    let r1 := ttlStepArea (persisted area) es
    let r2 := advertiseTtlGo env persisted rest
    ((area, r1.1) :: r2.1,
      (if r1.2.isEmpty then [] else (setKeysHelper env area r1.2).2) ++ r2.2)

/-- Embedding of `advertiseTtlUpdates` (timer scheduling elided). -/
def advertiseTtlUpdates (env : Env) (s : ClientState) :
    ClientState × List Event :=
  let r := advertiseTtlGo env s.persistedKeyVals s.keyTtlBackoffs
  ({ s with keyTtlBackoffs := r.1 }, r.2)

/-- Embedding of `scheduleTtlUpdates`: a `kTtlInfinity` ttl erases any TTL
entry and returns; otherwise install a value-less skeleton with a fresh
`(ttl/4, ttl/4+1)` backoff, delay the first refresh unless
`advertiseImmediately`, and drive `advertiseTtlUpdates`. -/
def scheduleTtlUpdates (env : Env) (s : ClientState) (area : Area) (key : Key)
    (version : Nat) (ttlVersion : Nat) (ttl : Int)
    (advertiseImmediately : Bool) : ClientState × List Event :=
  if ttl = kTtlInfinity then
    ({ s with keyTtlBackoffs := ttlTableErase s.keyTtlBackoffs area key }, [])
  else
    let skel : Value :=
      { version := version, originatorId := env.nodeId, value := none,
        ttl := ttl, ttlVersion := ttlVersion }
    let b0 := ExponentialBackoff.mk0 (ttl / 4) (ttl / 4 + 1)
    let b1 := if advertiseImmediately then b0 else b0.reportError
    advertiseTtlUpdates env
      { s with keyTtlBackoffs := ttlTableInsert s.keyTtlBackoffs area key (skel, b1) }

/-- Key loop of `advertisePendingKeys` for one area: look up each pending
key's persisted value and backoff (`.at`, aborting when missing); skip the
keys whose backoff disallows a try; `reportError` the rest and collect them
into the batch. -/
def advertiseAreaGo (persisted : Key → Option Value) :
    List Key → (Key → Option ExponentialBackoff) → List Key →
    List (Key × Value) →
    Except Abort ((Key → Option ExponentialBackoff) × List Key × List (Key × Value))
  | [], bo, sent, kvs => .ok (bo, sent, kvs)
  | k :: rest, bo, sent, kvs =>
    match persisted k, bo k with
    | none, _ => .error .missingEntry
    | some _, none => .error .missingEntry
    | some v, some b =>
      if b.canTryNow then
        advertiseAreaGo persisted rest
          (fun k2 => if k2 = k then some b.reportError else bo k2)
          (sent ++ [k]) (kvs ++ [(k, v)])
      else advertiseAreaGo persisted rest bo sent kvs

/-- One area's processing in `advertisePendingKeys`: an empty pending set
is skipped; otherwise build the batch with `advertiseAreaGo`, push it via
`setKeysHelper`, and on success erase exactly the sent keys from the
pending set (on failure the pending set is left as is). -/
def advertiseOneArea (env : Env) (area : Area)
    (persisted : Key → Option Value) (backoffs : Key → Option ExponentialBackoff)
    (pending : List Key) :
    Except Abort (List Key × (Key → Option ExponentialBackoff) × List Event) :=
  if pending.isEmpty then .ok (pending, backoffs, [])
  else
    match advertiseAreaGo persisted pending backoffs [] [] with
    | .error e => .error e
    | .ok (bo, sent, kvs) =>
      let r := setKeysHelper env area kvs
      .ok ((if r.1 then pending.filter (fun k => !(sent.contains k)) else pending),
        bo, r.2)

/-- Area loop of `advertisePendingKeys`. -/
def advertisePendingGo (env : Env) (persisted : Area → Key → Option Value) :
    List (Area × List Key) → (Area → Key → Option ExponentialBackoff) →
    Except Abort
      (List (Area × List Key) × (Area → Key → Option ExponentialBackoff) × List Event)
  | [], bo => .ok ([], bo, [])
  | (area, pending) :: rest, bo =>
    match advertiseOneArea env area (persisted area) (bo area) pending with
    | .error e => .error e
    | .ok (pending2, boArea, evs) =>
      match advertisePendingGo env persisted rest
        (fun a2 => if a2 = area then boArea else bo a2) with
      | .error e => .error e
      | .ok (rest2, bo2, evs2) => .ok ((area, pending2) :: rest2, bo2, evs ++ evs2)

/-- Embedding of `advertisePendingKeys` (timer scheduling elided). -/
def advertisePendingKeys (env : Env) (s : ClientState) :
    Except Abort (ClientState × List Event) :=
  match advertisePendingGo env s.persistedKeyVals s.keysToAdvertise s.backoffs with
  | .error e => .error e
  | .ok (pend2, bo2, evs) =>
    .ok ({ s with keysToAdvertise := pend2, backoffs := bo2 }, evs)

/-- The version-bump cascade of `processPublication` for a persisted key
(run only when the received version is not strictly older): a newer
received version, a foreign originator at the same version, or a diverging
payload each force `originatorId := self`, a version one above the larger
of the two, and a `ttlVersion` reset; the second component reports
`valueChange`. -/
def bumpStage (nodeId : String) (current rcvd : Value) : Value × Bool :=
  if current.version < rcvd.version then
    ({ current with
        originatorId := nodeId
        version := rcvd.version + 1
        ttlVersion := 0 }, true)
  else if rcvd.originatorId ≠ nodeId then
    ({ current with
        originatorId := nodeId
        version := current.version + 1
        ttlVersion := 0 }, true)
  else if current.value ≠ rcvd.value then
    ({ current with
        originatorId := nodeId
        version := current.version + 1
        ttlVersion := 0 }, true)
  else (current, false)

/-- The `ttlVersion` merge that follows the bump cascade: copy the
TTL-table skeleton's `ttlVersion` when an entry exists, then adopt the
received `ttlVersion` when it is higher. -/
def ttlMergeStage (sk : Option TtlEntry) (rcvd cur : Value) : Value :=
  let c := match sk with
    | some p => { cur with ttlVersion := p.1.ttlVersion }
    | none => cur
  if c.ttlVersion < rcvd.ttlVersion then { c with ttlVersion := rcvd.ttlVersion }
  else c

/-- The "key set (finite-TTL entry) but not persisted" block of the
Reconciler: when the received record wins on `(version, originatorId)` the
TTL entry is dropped (the key was taken over); on a `(version,
originatorId)` tie with a higher received `ttlVersion` the skeleton adopts
`rcvd.ttlVersion + 1` as the next refresh base.  Only the TTL-refresh table
is touched. -/
def skAdjust (s : ClientState) (area : Area) (key : Key) (rcvdValue : Value) :
    ClientState :=
  match ttlLookup s area key, s.persistedKeyVals area key with
  | some (setValue, b), none =>
    if rcvdValue.version > setValue.version ∨
        (rcvdValue.version = setValue.version ∧
          rcvdValue.originatorId > setValue.originatorId) then
      { s with keyTtlBackoffs := ttlTableErase s.keyTtlBackoffs area key }
    else if rcvdValue.version = setValue.version ∧
        rcvdValue.originatorId = setValue.originatorId ∧
        rcvdValue.ttlVersion > setValue.ttlVersion then
      if setValue.ttlVersion < rcvdValue.ttlVersion then
        let skel2 := { setValue with ttlVersion := rcvdValue.ttlVersion + 1 }
        { s with keyTtlBackoffs :=
            ttlTableInsert s.keyTtlBackoffs area key (skel2, b) }
      else s
    else s
  | _, _ => s

/-- The body of `processPublication`'s loop for one received `(key, value)`:
TTL-only entries are skipped before any callback; otherwise the catch-all
callback fires, the set-but-not-persisted TTL bookkeeping (`skAdjust`)
runs, a non-persisted key only fires the per-key and filter callbacks, and
a persisted key goes through the bump cascade and `ttlVersion` merge,
firing the per-key callback and entering the pending-advertise set on
`valueChange`. -/
def processKeyVal (env : Env) (s : ClientState) (area : Area) (key : Key)
    (rcvdValue : Value) : ClientState × List Event :=
  match rcvdValue.value with
  | none => (s, [])
  | some _ =>
    let ev0 : List Event :=
      if s.kvCallbackSet then [Event.kvCallback key (some rcvdValue)] else []
    let it := s.persistedKeyVals area key
    let cbInstalled := s.keyCallbacks area key
    let sk := ttlLookup s area key
    let s1 := skAdjust s area key rcvdValue
    match it with
    | none =>
      (s1, ev0 ++
        (if cbInstalled then [Event.keyCallback key (some rcvdValue)] else []) ++
        (if s.filterSet ∧ env.keyMatch key rcvdValue then
          [Event.filterCallback key rcvdValue] else []))
    | some currentValue =>
      if currentValue.version > rcvdValue.version then (s1, ev0)
      else
        let bump := bumpStage env.nodeId currentValue rcvdValue
        let cur5 := ttlMergeStage sk rcvdValue bump.1
        -- the received ttlVersion, when adopted, is also written back into
        -- the TTL-table skeleton
        let skCopied := match sk with
          | some p => { bump.1 with ttlVersion := p.1.ttlVersion }
          | none => bump.1
        let s2 :=
          if skCopied.ttlVersion < rcvdValue.ttlVersion then
            match sk with
            | some (skel, b) =>
              let skel2 := { skel with ttlVersion := rcvdValue.ttlVersion }
              { s1 with keyTtlBackoffs :=
                  ttlTableInsert s1.keyTtlBackoffs area key (skel2, b) }
            | none => s1
          else s1
        let s3 := { s2 with
          persistedKeyVals := fset s2.persistedKeyVals area key cur5 }
        let s4 :=
          if bump.2 then
            { s3 with keysToAdvertise := pendingInsert s3.keysToAdvertise area key }
          else s3
        (s4, ev0 ++
          (if bump.2 ∧ cbInstalled then [Event.keyCallback key (some cur5)] else []))

/-- Embedding of `processExpiredKeys`: fire the catch-all and per-key
callbacks with an absent value for every expired key. -/
def processExpiredKeys (s : ClientState) (area : Area) :
    List Key → List Event
  | [] => []
  | k :: rest =>
    (if s.kvCallbackSet then [Event.kvCallback k none] else []) ++
    (if s.keyCallbacks area k then [Event.keyCallback k none] else []) ++
    processExpiredKeys s area rest

/-- Fold of `processKeyVal` over a publication's `keyVals`. -/
def processKeyVals (env : Env) (area : Area) :
    ClientState → List (Key × Value) → ClientState × List Event
  | s, [] => (s, [])
  | s, (k, v) :: rest =>
    let r := processKeyVal env s area k v
    let r2 := processKeyVals env area r.1 rest
    (r2.1, r.2 ++ r2.2)

/-- Embedding of `processPublication`: assert a non-empty area, reconcile
every received entry, drive the advertise scheduler once, then handle
expired keys. -/
def processPublication (env : Env) (s : ClientState) (pub : Publication) :
    Except Abort (ClientState × List Event) :=
  if pub.area = "" then .error .emptyArea
  else
    let r := processKeyVals env pub.area s pub.keyVals
    match advertisePendingKeys env r.1 with
    | .error e => .error e
    | .ok (s2, evs2) =>
      .ok (s2, r.2 ++ evs2 ++
        (if pub.expiredKeys.isEmpty then []
         else processExpiredKeys s2 pub.area pub.expiredKeys))

/-- The version-bump decision of `persistKey`: a version-0 record becomes
version 1; a foreign originator or a changed payload bumps the version,
resets `ttlVersion` and takes ownership; the Bool reports `valueChange`. -/
def persistBump (env : Env) (value : String) (tv0 : Value) : Value × Bool :=
  if tv0.version = 0 then ({ tv0 with version := 1 }, true)
  else if tv0.originatorId ≠ env.nodeId ∨ tv0.value ≠ some value then
    ({ tv0 with
        version := tv0.version + 1
        ttlVersion := 0
        value := some value
        originatorId := env.nodeId }, true)
  else (tv0, false)

/-- The table writes of `persistKey`: cache the record in the persisted
table, install a fresh advertise backoff, and on `valueChange` add the key
to the pending-advertise set. -/
def persistWrite (env : Env) (s : ClientState) (area : Area) (key : Key)
    (tv : Value) (valueChange : Bool) : ClientState :=
  let s1 := { s with
    persistedKeyVals := fset s.persistedKeyVals area key tv,
    backoffs := fset s.backoffs area key
      (ExponentialBackoff.mk0 kInitialBackoff kMaxBackoff) }
  if valueChange then
    { s1 with keysToAdvertise := pendingInsert s1.keysToAdvertise area key }
  else s1

/-- The closing steps of `persistKey`: drive the advertise scheduler once
and (re)schedule the TTL refresh. -/
def persistFinish (env : Env) (sw : ClientState) (area : Area) (key : Key)
    (version ttlVersion : Nat) (ttl : Int) (hasTtlChanged : Bool)
    (evPre : List Event) : Except Abort (Bool × ClientState × List Event) :=
  match advertisePendingKeys env sw with
  | .error e => .error e
  | .ok (s3, ev2) =>
    let r4 := scheduleTtlUpdates env s3 area key version ttlVersion ttl
      hasTtlChanged
    .ok (true, r4.1, evPre ++ ev2 ++ r4.2)

/-- The tail of `persistKey` after the cached/fetched record has been
selected: bump the record for re-advertisement when needed, write it into
the persisted table with a fresh advertise backoff, fire the per-key
callback and enter the pending set on `valueChange`, drive the advertise
scheduler and (re)schedule TTL refresh. -/
def persistKeyRest (env : Env) (s : ClientState) (area : Area) (key : Key)
    (value : String) (ttl : Int) (tv0 : Value) (ev0 : List Event) :
    Except Abort (Bool × ClientState × List Event) :=
  let r1 := persistBump env value tv0
  let hasTtlChanged := ttl ≠ r1.1.ttl
  let tv : Value := { r1.1 with ttl := ttl }
  let ev1 :=
    if s.keyCallbacks area key ∧ r1.2 then [Event.keyCallback key (some tv)] else []
  persistFinish env (persistWrite env s area key tv r1.2) area key
    tv.version tv.ttlVersion ttl hasTtlChanged (ev0 ++ ev1)

/-- Embedding of `persistKey`: an unchanged `(value, ttl)` for an already
persisted key is a no-op returning `false`; otherwise start from the cached
record (carrying the TTL-table `ttlVersion` forward) or, for a new key,
from the store's record or a fresh version-0 record, and run
`persistKeyRest`. -/
def persistKey (env : Env) (s : ClientState) (area : Area) (key : Key)
    (value : String) (ttl : Int) :
    Except Abort (Bool × ClientState × List Event) :=
  match s.persistedKeyVals area key with
  | some cached =>
    if cached.value = some value ∧ cached.ttl = ttl then .ok (false, s, [])
    else
      let tv0 := match ttlLookup s area key with
        | some (skel, _) => { cached with ttlVersion := skel.ttlVersion }
        | none => cached
      persistKeyRest env s area key value ttl tv0 []
  | none =>
    let g := getKeyStore env area key
    let tv0 := match g.1 with
      | some v => v
      | none =>
        { version := 0, originatorId := env.nodeId, value := some value,
          ttl := ttl, ttlVersion := 0 }
    persistKeyRest env s area key value ttl tv0 g.2

/-- Embedding of `buildThriftValue`: a zero `version` argument means "one
above the store's current version, or 1 when the store has no record". -/
def buildThriftValue (env : Env) (area : Area) (key : Key) (value : String)
    (version : Nat) (ttl : Int) : Value × List Event :=
  let base : Value :=
    { version := version, originatorId := env.nodeId, value := some value,
      ttl := ttl, ttlVersion := 0 }
  if version = 0 then
    let g := getKeyStore env area key
    match g.1 with
    | some v => ({ base with version := v.version + 1 }, g.2)
    | none => ({ base with version := 1 }, g.2)
  else (base, [])

/-- Embedding of the `thrift::Value` overload of `setKey`: push the record
once through `setKeysHelper`, then register TTL refresh (with
`advertiseImmediately = false`) regardless of the push's outcome. -/
def setKeyVal (env : Env) (s : ClientState) (area : Area) (key : Key)
    (thriftValue : Value) : Bool × ClientState × List Event :=
  let r1 := setKeysHelper env area [(key, thriftValue)]
  let r2 := scheduleTtlUpdates env s area key thriftValue.version
    thriftValue.ttlVersion thriftValue.ttl false
  (r1.1, r2.1, r1.2 ++ r2.2)

/-- Embedding of the string overload of `setKey`: build the record with
`buildThriftValue`, then run the `thrift::Value` overload. -/
def setKey (env : Env) (s : ClientState) (area : Area) (key : Key)
    (value : String) (version : Nat) (ttl : Int) :
    Bool × ClientState × List Event :=
  let b := buildThriftValue env area key value version ttl
  let r := setKeyVal env s area key b.1
  (r.1, r.2.1, b.2 ++ r.2.2)

/-- Embedding of `unsetKey`: erase the key from the persisted table, the
advertise-backoff table, the TTL-refresh table and the pending-advertise
set; no store interaction. -/
def unsetKey (s : ClientState) (area : Area) (key : Key) :
    ClientState × List Event :=
  ({ s with
      persistedKeyVals := fdel s.persistedKeyVals area key,
      backoffs := fdel s.backoffs area key,
      keyTtlBackoffs := ttlTableErase s.keyTtlBackoffs area key,
      keysToAdvertise := pendingErase s.keysToAdvertise area key }, [])

/-- Embedding of `clearKey`: `unsetKey`, then, when the store still holds
the key, publish one final self-originated record with a bumped version and
the replacement payload. -/
def clearKey (env : Env) (s : ClientState) (area : Area) (key : Key)
    (keyValue : String) (ttl : Int) : ClientState × List Event :=
  let u := unsetKey s area key
  let g := getKeyStore env area key
  match g.1 with
  | none => (u.1, u.2 ++ g.2)
  | some v =>
    let tv : Value :=
      { v with
        originatorId := env.nodeId
        version := v.version + 1
        ttl := ttl
        ttlVersion := 0
        value := some keyValue }
    (u.1, u.2 ++ g.2 ++ (setKeysHelper env area [(key, tv)]).2)

/-- Strict domination in the Reconciler's lexicographic
`(version, originatorId, ttlVersion)` order. -/
def domLt (a b : Value) : Prop :=
  a.version < b.version ∨
    (a.version = b.version ∧
      (a.originatorId < b.originatorId ∨
        (a.originatorId = b.originatorId ∧ a.ttlVersion < b.ttlVersion)))

/-- Domination-or-tie in the `(version, originatorId, ttlVersion)` order. -/
def domLe (a b : Value) : Prop :=
  domLt a b ∨
    (a.version = b.version ∧ a.originatorId = b.originatorId ∧
      a.ttlVersion = b.ttlVersion)

instance (a b : Value) : Decidable (domLt a b) := by
  unfold domLt; infer_instance

instance (a b : Value) : Decidable (domLe a b) := by
  unfold domLe; infer_instance

/-! ### Association-list and table lemmas -/

theorem alookup_ainsert_self {α : Type} (m : List (String × α)) (k : String)
    (v : α) : alookup (ainsert m k v) k = some v := by
  induction m with
  | nil => simp [ainsert, alookup]
  | cons h t ih =>
    obtain ⟨a, b⟩ := h
    by_cases hak : a = k
    · simp [ainsert, hak, alookup]
    · simp [ainsert, hak, alookup, ih]

theorem alookup_ainsert_ne {α : Type} (m : List (String × α)) (k k2 : String)
    (v : α) (h : k2 ≠ k) : alookup (ainsert m k v) k2 = alookup m k2 := by
  have hne : ¬ k = k2 := fun h2 => h h2.symm
  induction m with
  | nil => simp [ainsert, alookup, hne]
  | cons hd t ih =>
    obtain ⟨a, b⟩ := hd
    by_cases hak : a = k
    · subst hak
      simp [ainsert, alookup, hne]
    · simp only [ainsert, if_neg hak, alookup]
      by_cases hk2 : a = k2 <;> simp [hk2, ih]

theorem alookup_aerase_self {α : Type} (m : List (String × α)) (k : String) :
    alookup (aerase m k) k = none := by
  induction m with
  | nil => rfl
  | cons hd t ih =>
    obtain ⟨a, b⟩ := hd
    by_cases hak : a = k
    · simp [aerase, hak, ih]
    · simp [aerase, hak, alookup, ih]

theorem alookup_aerase_ne {α : Type} (m : List (String × α)) (k k2 : String)
    (h : k2 ≠ k) : alookup (aerase m k) k2 = alookup m k2 := by
  have hne : ¬ k = k2 := fun h2 => h h2.symm
  induction m with
  | nil => rfl
  | cons hd t ih =>
    obtain ⟨a, b⟩ := hd
    by_cases hak : a = k
    · subst hak
      simp [aerase, alookup, hne, ih]
    · simp only [aerase, if_neg hak, alookup]
      by_cases hk2 : a = k2 <;> simp [hk2, ih]

theorem mem_lerase (l : List Key) (k x : Key) :
    x ∈ lerase l k ↔ x ∈ l ∧ x ≠ k := by
  induction l with
  | nil => simp [lerase]
  | cons hd t ih =>
    by_cases hk : hd = k
    · simp only [lerase, if_pos hk, ih, List.mem_cons]
      subst hk
      constructor
      · rintro ⟨hx, hne⟩
        exact ⟨Or.inr hx, hne⟩
      · rintro ⟨hx | hx, hne⟩
        · exact absurd hx hne
        · exact ⟨hx, hne⟩
    · simp only [lerase, if_neg hk, List.mem_cons, ih]
      constructor
      · rintro (hx | ⟨hx, hne⟩)
        · exact ⟨Or.inl hx, hx ▸ hk⟩
        · exact ⟨Or.inr hx, hne⟩
      · rintro ⟨hx | hx, hne⟩
        · exact Or.inl hx
        · exact Or.inr ⟨hx, hne⟩

theorem mem_linsert (l : List Key) (k x : Key) :
    x ∈ linsert l k ↔ x ∈ l ∨ x = k := by
  unfold linsert
  by_cases hc : l.contains k
  · have hm : k ∈ l := by simpa using hc
    simp only [if_pos hc]
    constructor
    · exact Or.inl
    · rintro (hx | hx)
      · exact hx
      · exact hx ▸ hm
  · have hm : ¬ k ∈ l := by simpa using hc
    rw [if_neg hc]
    simp only [List.mem_append, List.mem_singleton]

theorem alookup_ttlTableErase (m : List (Area × List (Key × TtlEntry)))
    (a k : String) :
    alookup (ttlTableErase m a k) a = (alookup m a).map (fun es => aerase es k) := by
  induction m with
  | nil => rfl
  | cons hd t ih =>
    obtain ⟨a2, es⟩ := hd
    by_cases ha : a2 = a
    · subst ha; simp [ttlTableErase, alookup]
    · simp [ttlTableErase, ha, alookup, ih]

theorem alookup_ttlTableErase_ne (m : List (Area × List (Key × TtlEntry)))
    (a k a2 : String) (h : a2 ≠ a) :
    alookup (ttlTableErase m a k) a2 = alookup m a2 := by
  have hne : ¬ a = a2 := fun h2 => h h2.symm
  induction m with
  | nil => rfl
  | cons hd t ih =>
    obtain ⟨a3, es⟩ := hd
    by_cases ha : a3 = a
    · subst ha
      simp [ttlTableErase, alookup, hne, ih]
    · simp only [ttlTableErase, if_neg ha, alookup]
      by_cases ha2 : a3 = a2 <;> simp [ha2, ih]

theorem alookup_ttlTableInsert (m : List (Area × List (Key × TtlEntry)))
    (a k : String) (v : TtlEntry) :
    alookup (ttlTableInsert m a k v) a =
      some (ainsert ((alookup m a).getD []) k v) := by
  induction m with
  | nil => simp [ttlTableInsert, alookup, ainsert]
  | cons hd t ih =>
    obtain ⟨a2, es⟩ := hd
    by_cases ha : a2 = a
    · subst ha; simp [ttlTableInsert, alookup]
    · simp [ttlTableInsert, ha, alookup, ih]

theorem alookup_ttlTableInsert_ne (m : List (Area × List (Key × TtlEntry)))
    (a k a2 : String) (v : TtlEntry) (h : a2 ≠ a) :
    alookup (ttlTableInsert m a k v) a2 = alookup m a2 := by
  have hne : ¬ a = a2 := fun h2 => h h2.symm
  induction m with
  | nil => simp [ttlTableInsert, alookup, hne]
  | cons hd t ih =>
    obtain ⟨a3, es⟩ := hd
    by_cases ha : a3 = a
    · subst ha
      simp [ttlTableInsert, alookup, hne]
    · simp only [ttlTableInsert, if_neg ha, alookup]
      by_cases ha2 : a3 = a2 <;> simp [ha2, ih]

theorem alookup_pendingInsert (m : List (Area × List Key)) (a k : String) :
    alookup (pendingInsert m a k) a =
      some (linsert ((alookup m a).getD []) k) := by
  induction m with
  | nil => simp [pendingInsert, alookup, linsert]
  | cons hd t ih =>
    obtain ⟨a2, l⟩ := hd
    by_cases ha : a2 = a
    · subst ha; simp [pendingInsert, alookup]
    · simp [pendingInsert, ha, alookup, ih]

theorem alookup_pendingInsert_ne (m : List (Area × List Key)) (a k a2 : String)
    (h : a2 ≠ a) : alookup (pendingInsert m a k) a2 = alookup m a2 := by
  have hne : ¬ a = a2 := fun h2 => h h2.symm
  induction m with
  | nil => simp [pendingInsert, alookup, hne]
  | cons hd t ih =>
    obtain ⟨a3, l⟩ := hd
    by_cases ha : a3 = a
    · subst ha
      simp [pendingInsert, alookup, hne]
    · simp only [pendingInsert, if_neg ha, alookup]
      by_cases ha2 : a3 = a2 <;> simp [ha2, ih]

theorem alookup_pendingErase (m : List (Area × List Key)) (a k : String) :
    alookup (pendingErase m a k) a = (alookup m a).map (fun l => lerase l k) := by
  induction m with
  | nil => rfl
  | cons hd t ih =>
    obtain ⟨a2, l⟩ := hd
    by_cases ha : a2 = a
    · subst ha; simp [pendingErase, alookup]
    · simp [pendingErase, ha, alookup, ih]

theorem alookup_pendingErase_ne (m : List (Area × List Key)) (a k a2 : String)
    (h : a2 ≠ a) : alookup (pendingErase m a k) a2 = alookup m a2 := by
  have hne : ¬ a = a2 := fun h2 => h h2.symm
  induction m with
  | nil => rfl
  | cons hd t ih =>
    obtain ⟨a3, l⟩ := hd
    by_cases ha : a3 = a
    · subst ha
      simp [pendingErase, alookup, hne, ih]
    · simp only [pendingErase, if_neg ha, alookup]
      by_cases ha2 : a3 = a2 <;> simp [ha2, ih]

/-! ### Projection lemmas: which fields each operation leaves untouched -/

theorem advertiseTtlUpdates_persisted (env : Env) (s : ClientState) :
    (advertiseTtlUpdates env s).1.persistedKeyVals = s.persistedKeyVals := rfl

theorem advertiseTtlUpdates_pending (env : Env) (s : ClientState) :
    (advertiseTtlUpdates env s).1.keysToAdvertise = s.keysToAdvertise := rfl

theorem advertiseTtlUpdates_backoffs (env : Env) (s : ClientState) :
    (advertiseTtlUpdates env s).1.backoffs = s.backoffs := rfl

theorem scheduleTtlUpdates_persisted (env : Env) (s : ClientState)
    (area : Area) (key : Key) (v tv : Nat) (ttl : Int) (ai : Bool) :
    (scheduleTtlUpdates env s area key v tv ttl ai).1.persistedKeyVals =
      s.persistedKeyVals := by
  unfold scheduleTtlUpdates
  split <;> rfl

theorem scheduleTtlUpdates_pending (env : Env) (s : ClientState)
    (area : Area) (key : Key) (v tv : Nat) (ttl : Int) (ai : Bool) :
    (scheduleTtlUpdates env s area key v tv ttl ai).1.keysToAdvertise =
      s.keysToAdvertise := by
  unfold scheduleTtlUpdates
  split <;> rfl

theorem skAdjust_persisted (s : ClientState) (area : Area) (key : Key)
    (rcvd : Value) :
    (skAdjust s area key rcvd).persistedKeyVals = s.persistedKeyVals := by
  unfold skAdjust
  split
  · split
    · rfl
    · split
      · split <;> rfl
      · rfl
  · rfl

theorem skAdjust_pending (s : ClientState) (area : Area) (key : Key)
    (rcvd : Value) :
    (skAdjust s area key rcvd).keysToAdvertise = s.keysToAdvertise := by
  unfold skAdjust
  split
  · split
    · rfl
    · split
      · split <;> rfl
      · rfl
  · rfl

theorem skAdjust_kvCallbackSet (s : ClientState) (area : Area) (key : Key)
    (rcvd : Value) :
    (skAdjust s area key rcvd).kvCallbackSet = s.kvCallbackSet := by
  unfold skAdjust
  split
  · split
    · rfl
    · split
      · split <;> rfl
      · rfl
  · rfl

theorem skAdjust_keyCallbacks (s : ClientState) (area : Area) (key : Key)
    (rcvd : Value) :
    (skAdjust s area key rcvd).keyCallbacks = s.keyCallbacks := by
  unfold skAdjust
  split
  · split
    · rfl
    · split
      · split <;> rfl
      · rfl
  · rfl

theorem skAdjust_backoffs (s : ClientState) (area : Area) (key : Key)
    (rcvd : Value) :
    (skAdjust s area key rcvd).backoffs = s.backoffs := by
  unfold skAdjust
  split
  · split
    · rfl
    · split
      · split <;> rfl
      · rfl
  · rfl

/-! ### Common witness inputs -/

/-- An environment for concrete evaluations: node "A", an empty store that
accepts every write, no filter matches. -/
def envW : Env :=
  { nodeId := "A", storeGet := fun _ _ => none,
    storeSetOk := fun _ _ => true, keyMatch := fun _ _ => false }

/-- The freshly constructed client state: all tables empty, the catch-all
callback installed. -/
def sEmpty : ClientState :=
  { persistedKeyVals := fun _ _ => none, backoffs := fun _ _ => none,
    keyTtlBackoffs := [], keysToAdvertise := [],
    keyCallbacks := fun _ _ => false, kvCallbackSet := true,
    filterSet := false }

/-- A self-originated persisted record. -/
def pW : Value :=
  { version := 1, originatorId := "A", value := some "v", ttl := 10,
    ttlVersion := 0 }

/-- A state persisting `pW` under area "a", key "k" (with its advertise
backoff installed, as `persistKey` would leave it). -/
def sW : ClientState :=
  { sEmpty with
    persistedKeyVals := fset sEmpty.persistedKeyVals "a" "k" pW,
    backoffs := fset sEmpty.backoffs "a" "k"
      (ExponentialBackoff.mk0 kInitialBackoff kMaxBackoff) }

/-! ### C7: unsetKey removes the key from all four tables -/

/-- C7: after `unsetKey(A, K)` returns, K is absent from the Persisted Key
Table, the Advertise Backoff Table, the TTL Refresh Table and the Pending
Advertise Set of area A, and `unsetKey` performs no store call. -/
theorem unsetKey_removes_from_all_tables (s : ClientState) (area : Area)
    (key : Key) :
    (unsetKey s area key).1.persistedKeyVals area key = none ∧
    (unsetKey s area key).1.backoffs area key = none ∧
    ttlLookup (unsetKey s area key).1 area key = none ∧
    key ∉ pendingOf (unsetKey s area key).1 area ∧
    (unsetKey s area key).2 = [] := by
  refine ⟨by simp [unsetKey, fdel], by simp [unsetKey, fdel], ?_, ?_, rfl⟩
  · show alookup ((alookup (ttlTableErase s.keyTtlBackoffs area key) area).getD []) key = none
    rw [alookup_ttlTableErase]
    cases alookup s.keyTtlBackoffs area with
    | none => rfl
    | some es => simpa using alookup_aerase_self es key
  · show key ∉ (alookup (pendingErase s.keysToAdvertise area key) area).getD []
    rw [alookup_pendingErase]
    cases alookup s.keysToAdvertise area with
    | none => simp
    | some l => simpa using fun h => ((mem_lerase l key key).mp h).2 rfl

/-! ### C3: persistKey of an unchanged (value, ttl) is a strict no-op -/

/-- C3: when the key is already persisted with the same payload and ttl,
`persistKey` returns `false` and changes nothing — the returned state is
the input state unchanged and the trace is empty (no table, backoff,
pending-set, callback, or store interaction). -/
theorem persistKey_noop (env : Env) (s : ClientState) (area : Area)
    (key : Key) (value : String) (ttl : Int) (cached : Value)
    (hp : s.persistedKeyVals area key = some cached)
    (hv : cached.value = some value) (ht : cached.ttl = ttl) :
    persistKey env s area key value ttl = .ok (false, s, []) := by
  simp [persistKey, hp, hv, ht]

/-- Witness for C3 at a concrete persisted state. -/
theorem persistKey_noop_w :
    sW.persistedKeyVals "a" "k" = some pW ∧ pW.value = some "v" ∧
    (pW.ttl = (10 : Int)) ∧
    persistKey envW sW "a" "k" "v" 10 = .ok (false, sW, []) :=
  ⟨by decide, by decide, by decide,
    persistKey_noop envW sW "a" "k" "v" 10 pW (by decide) (by decide) (by decide)⟩

/-! ### TTL-refresh table lemmas -/

/-- The effect of one `advertiseTtlUpdates` pass on a single TTL entry. -/
def ttlStepEntry (persisted : Key → Option Value) (k : Key) (e : TtlEntry) :
    TtlEntry :=
  if e.2.canTryNow then
    let skel1 := match persisted k with
      | some pv =>
        if e.1.version < pv.version then
          { e.1 with version := pv.version, ttlVersion := pv.ttlVersion }
        else e.1
      | none => e.1
    ({ skel1 with ttlVersion := skel1.ttlVersion + 1 }, e.2.reportError)
  else e

theorem ttlStepEntry_ttl (persisted : Key → Option Value) (k : Key)
    (e : TtlEntry) : (ttlStepEntry persisted k e).1.ttl = e.1.ttl := by
  unfold ttlStepEntry
  split
  · split
    · split <;> rfl
    · rfl
  · rfl

theorem alookup_ttlStepArea (persisted : Key → Option Value)
    (es : List (Key × TtlEntry)) (k : Key) :
    alookup (ttlStepArea persisted es).1 k =
      (alookup es k).map (ttlStepEntry persisted k) := by
  induction es with
  | nil => rfl
  | cons hd t ih =>
    obtain ⟨k2, skel, b⟩ := hd
    by_cases hb : b.canTryNow
    · simp only [ttlStepArea, if_pos hb, alookup]
      by_cases hk : k2 = k
      · subst hk
        simp [ttlStepEntry, hb]
      · simp [hk, ih]
    · simp only [ttlStepArea, if_neg hb, alookup]
      by_cases hk : k2 = k
      · subst hk
        simp [ttlStepEntry, hb]
      · simp [hk, ih]

theorem alookup_advertiseTtlGo (env : Env)
    (persisted : Area → Key → Option Value)
    (m : List (Area × List (Key × TtlEntry))) (a : Area) :
    alookup (advertiseTtlGo env persisted m).1 a =
      (alookup m a).map (fun es => (ttlStepArea (persisted a) es).1) := by
  induction m with
  | nil => rfl
  | cons hd t ih =>
    obtain ⟨a2, es⟩ := hd
    by_cases ha : a2 = a
    · subst ha
      simp [advertiseTtlGo, alookup]
    · simp [advertiseTtlGo, alookup, ha, ih]

theorem ttlLookup_advertiseTtlUpdates (env : Env) (s : ClientState) (a : Area)
    (k : Key) :
    ttlLookup (advertiseTtlUpdates env s).1 a k =
      (ttlLookup s a k).map (ttlStepEntry (s.persistedKeyVals a) k) := by
  show alookup ((alookup (advertiseTtlGo env s.persistedKeyVals s.keyTtlBackoffs).1 a).getD []) k = _
  rw [alookup_advertiseTtlGo]
  unfold ttlLookup
  cases alookup s.keyTtlBackoffs a with
  | none => rfl
  | some es => simpa using alookup_ttlStepArea (s.persistedKeyVals a) es k

theorem ttlLookup_erase (s : ClientState) (area : Area) (key : Key)
    (a : Area) (k : Key) (e : TtlEntry)
    (h : ttlLookup { s with keyTtlBackoffs := ttlTableErase s.keyTtlBackoffs area key } a k = some e) :
    ttlLookup s a k = some e := by
  unfold ttlLookup at h ⊢
  by_cases ha : a = area
  · subst ha
    rw [alookup_ttlTableErase] at h
    cases hm : alookup s.keyTtlBackoffs a with
    | none =>
      rw [hm] at h
      simp [alookup] at h
    | some es =>
      rw [hm] at h
      simp only [Option.map_some', Option.getD_some] at h
      simp only [Option.getD_some]
      by_cases hk : k = key
      · subst hk
        rw [alookup_aerase_self] at h
        cases h
      · rwa [alookup_aerase_ne es key k hk] at h
  · rwa [alookup_ttlTableErase_ne s.keyTtlBackoffs area key a ha] at h

/-- The finite-ttl invariant of the TTL Refresh Table: every stored
skeleton's ttl differs from the `kTtlInfinity` sentinel. -/
def TtlFinite (s : ClientState) : Prop :=
  ∀ a k e, ttlLookup s a k = some e → e.1.ttl ≠ kTtlInfinity

/-! ### C8: scheduleTtlUpdates and the finiteness of TTL entries -/

/-- C8 (amended): `scheduleTtlUpdates` preserves the invariant that every
TTL Refresh Table skeleton's ttl differs from the `TTL_INFINITE` sentinel,
and a `TTL_INFINITE` ttl deletes any existing TTL entry for the key and
never creates one.  (The claim's additional "non-zero" condition is not
enforced by the code: see the counterexample.) -/
theorem scheduleTtlUpdates_ttl_finite (env : Env) (s : ClientState)
    (area : Area) (key : Key) (v tv : Nat) (ttl : Int) (ai : Bool)
    (hInv : TtlFinite s) :
    TtlFinite (scheduleTtlUpdates env s area key v tv ttl ai).1 ∧
    (ttl = kTtlInfinity →
      ttlLookup (scheduleTtlUpdates env s area key v tv ttl ai).1 area key = none) := by
  by_cases hinf : ttl = kTtlInfinity
  · rw [scheduleTtlUpdates, if_pos hinf]
    refine ⟨?_, fun _ => ?_⟩
    · intro a k e h
      exact hInv a k e (ttlLookup_erase s area key a k e h)
    · show alookup ((alookup (ttlTableErase s.keyTtlBackoffs area key) area).getD []) key = none
      rw [alookup_ttlTableErase]
      cases alookup s.keyTtlBackoffs area with
      | none => rfl
      | some es => simpa using alookup_aerase_self es key
  · rw [scheduleTtlUpdates, if_neg hinf]
    refine ⟨?_, fun hc => absurd hc hinf⟩
    intro a k e h
    rw [ttlLookup_advertiseTtlUpdates] at h
    rcases Option.map_eq_some'.mp h with ⟨e0, he0, hstep⟩
    have hfin : e0.1.ttl ≠ kTtlInfinity := by
      revert he0
      show ttlLookup _ a k = some e0 → _
      unfold ttlLookup
      by_cases ha : a = area
      · subst ha
        rw [alookup_ttlTableInsert]
        simp only [Option.getD_some]
        by_cases hk : k = key
        · subst hk
          rw [alookup_ainsert_self]
          intro he0
          cases he0
          simpa using hinf
        · rw [alookup_ainsert_ne _ _ _ _ hk]
          intro he0
          exact hInv _ k e0 he0
      · rw [alookup_ttlTableInsert_ne s.keyTtlBackoffs area key a _ ha]
        intro he0
        exact hInv a k e0 he0
    rw [← hstep, ttlStepEntry_ttl]
    exact hfin

/-- Witness for C8 at a concrete state: an existing finite entry survives
and an infinite-ttl call deletes it. -/
theorem scheduleTtlUpdates_ttl_finite_w :
    TtlFinite sW ∧
    (TtlFinite (scheduleTtlUpdates envW sW "a" "k" 1 0 kTtlInfinity false).1 ∧
      (kTtlInfinity = kTtlInfinity →
        ttlLookup (scheduleTtlUpdates envW sW "a" "k" 1 0 kTtlInfinity false).1 "a" "k" = none)) := by
  have hInv : TtlFinite sW := by
    intro a k e h
    simp [ttlLookup, sW, sEmpty, alookup] at h
  exact ⟨hInv, scheduleTtlUpdates_ttl_finite envW sW "a" "k" 1 0 kTtlInfinity false hInv⟩

/-- Counterexample for C8 as stated: `scheduleTtlUpdates` with the finite
ttl `0` (which is not the `TTL_INFINITE` sentinel) creates a TTL Refresh
Table entry whose skeleton ttl is zero, so the "non-zero" part of the
claimed invariant does not hold. -/
theorem scheduleTtlUpdates_zero_ttl_cex :
    (0 : Int) ≠ kTtlInfinity ∧
    (ttlLookup (scheduleTtlUpdates envW sEmpty "a" "k" 1 0 0 false).1 "a" "k").map
      (fun e => e.1.ttl) = some 0 := by
  constructor
  · decide
  · decide

/-! ### C9: setKey does not persist but does register TTL refresh -/

theorem buildThriftValue_ttl (env : Env) (area : Area) (key : Key)
    (value : String) (version : Nat) (ttl : Int) :
    (buildThriftValue env area key value version ttl).1.ttl = ttl := by
  simp only [buildThriftValue]
  split
  · split <;> rfl
  · rfl

theorem ttlLookup_insert_self (s : ClientState) (area : Area) (key : Key)
    (v : TtlEntry) :
    ttlLookup { s with keyTtlBackoffs := ttlTableInsert s.keyTtlBackoffs area key v } area key = some v := by
  show alookup ((alookup (ttlTableInsert s.keyTtlBackoffs area key v) area).getD []) key = some v
  rw [alookup_ttlTableInsert]
  simp [alookup_ainsert_self]

theorem scheduleTtlUpdates_lookup_isSome (env : Env) (s : ClientState)
    (area : Area) (key : Key) (v tv : Nat) (ttl : Int) (ai : Bool)
    (h : ttl ≠ kTtlInfinity) :
    (ttlLookup (scheduleTtlUpdates env s area key v tv ttl ai).1 area key).isSome := by
  simp only [scheduleTtlUpdates, if_neg h]
  rw [ttlLookup_advertiseTtlUpdates, ttlLookup_insert_self]
  rfl

/-- C9: `setKey(area, key, value, version, ttl)` with a finite ttl leaves
the Persisted Key Table unchanged (the key is never added to it) yet
installs a TTL Refresh Table entry for the key, which will keep receiving
TTL refreshes although nothing defends it. -/
theorem setKey_no_persist_but_ttl (env : Env) (s : ClientState) (area : Area)
    (key : Key) (value : String) (version : Nat) (ttl : Int)
    (h : ttl ≠ kTtlInfinity) :
    (setKey env s area key value version ttl).2.1.persistedKeyVals =
      s.persistedKeyVals ∧
    (ttlLookup (setKey env s area key value version ttl).2.1 area key).isSome := by
  constructor
  · show (scheduleTtlUpdates env s area key _ _ _ _).1.persistedKeyVals = _
    exact scheduleTtlUpdates_persisted env s area key _ _ _ _
  · show (ttlLookup (scheduleTtlUpdates env s area key _ _
      (buildThriftValue env area key value version ttl).1.ttl _).1 area key).isSome
    rw [buildThriftValue_ttl]
    exact scheduleTtlUpdates_lookup_isSome env s area key _ _ ttl _ h

/-- Witness for C9 at a concrete input. -/
theorem setKey_no_persist_but_ttl_w :
    ((10 : Int) ≠ kTtlInfinity) ∧
    ((setKey envW sEmpty "a" "k" "v" 0 10).2.1.persistedKeyVals =
      sEmpty.persistedKeyVals ∧
    (ttlLookup (setKey envW sEmpty "a" "k" "v" 0 10).2.1 "a" "k").isSome) :=
  ⟨by decide, setKey_no_persist_but_ttl envW sEmpty "a" "k" "v" 0 10 (by decide)⟩

/-! ### C10: the non-empty-area intake assertion -/

theorem advertiseAreaGo_error (persisted : Key → Option Value)
    (pending : List Key) (bo : Key → Option ExponentialBackoff)
    (sent : List Key) (kvs : List (Key × Value)) (e : Abort)
    (h : advertiseAreaGo persisted pending bo sent kvs = .error e) :
    e = .missingEntry := by
  induction pending generalizing bo sent kvs with
  | nil => simp [advertiseAreaGo] at h
  | cons k rest ih =>
    rw [advertiseAreaGo] at h
    cases hp : persisted k with
    | none =>
      rw [hp] at h
      cases h
      rfl
    | some v =>
      cases hb : bo k with
      | none =>
        rw [hp, hb] at h
        cases h
        rfl
      | some b =>
        simp only [hp, hb] at h
        by_cases hc : b.canTryNow
        · rw [if_pos hc] at h
          exact ih _ _ _ h
        · rw [if_neg hc] at h
          exact ih _ _ _ h

theorem advertiseOneArea_error (env : Env) (area : Area)
    (persisted : Key → Option Value) (backoffs : Key → Option ExponentialBackoff)
    (pending : List Key) (e : Abort)
    (h : advertiseOneArea env area persisted backoffs pending = .error e) :
    e = .missingEntry := by
  unfold advertiseOneArea at h
  split at h
  · cases h
  · cases hgo : advertiseAreaGo persisted pending backoffs [] [] with
    | error e2 =>
      rw [hgo] at h
      cases h
      exact advertiseAreaGo_error persisted pending backoffs [] [] _ hgo
    | ok r =>
      obtain ⟨bo, sent, kvs⟩ := r
      rw [hgo] at h
      cases h

theorem advertisePendingGo_error (env : Env)
    (persisted : Area → Key → Option Value) (m : List (Area × List Key))
    (bo : Area → Key → Option ExponentialBackoff) (e : Abort)
    (h : advertisePendingGo env persisted m bo = .error e) :
    e = .missingEntry := by
  induction m generalizing bo with
  | nil => cases h
  | cons hd rest ih =>
    obtain ⟨area, pending⟩ := hd
    rw [advertisePendingGo] at h
    cases hone : advertiseOneArea env area (persisted area) (bo area) pending with
    | error e2 =>
      simp only [hone] at h
      cases h
      exact advertiseOneArea_error env area _ _ pending _ hone
    | ok r =>
      obtain ⟨pending2, boArea, evs⟩ := r
      simp only [hone] at h
      cases hrec : advertisePendingGo env persisted rest
          (fun a2 => if a2 = area then boArea else bo a2) with
      | error e3 =>
        simp only [hrec] at h
        cases h
        exact ih _ hrec
      | ok r2 =>
        obtain ⟨rest2, bo2, evs2⟩ := r2
        simp only [hrec] at h
        cases h

theorem advertisePendingKeys_error (env : Env) (s : ClientState) (e : Abort)
    (h : advertisePendingKeys env s = .error e) : e = .missingEntry := by
  unfold advertisePendingKeys at h
  cases hgo : advertisePendingGo env s.persistedKeyVals s.keysToAdvertise s.backoffs with
  | error e2 =>
    rw [hgo] at h
    cases h
    exact advertisePendingGo_error env _ _ _ _ hgo
  | ok r =>
    obtain ⟨pend2, bo2, evs⟩ := r
    rw [hgo] at h
    cases h

/-- C10: `processPublication` aborts with the intake assertion exactly on
publications whose area identifier is the empty string; with a non-empty
area that assertion can never fire (any later abort comes from a different
check). -/
theorem processPublication_area_assert (env : Env) (s : ClientState)
    (pub : Publication) :
    processPublication env s pub = .error .emptyArea ↔ pub.area = "" := by
  constructor
  · intro h
    by_contra hne
    simp only [processPublication, if_neg hne] at h
    cases hap : advertisePendingKeys env (processKeyVals env pub.area s pub.keyVals).1 with
    | error e =>
      simp only [hap] at h
      cases h
      have := advertisePendingKeys_error env _ _ hap
      cases this
    | ok r =>
      obtain ⟨s2, evs2⟩ := r
      simp only [hap] at h
      cases h
  · intro h
    simp only [processPublication, if_pos h]

/-! ### C4: advertisePendingKeys sends exactly the backoff-permitted keys -/

/-- `canTryNow` of an optional backoff entry (false when absent). -/
def canTryOf : Option ExponentialBackoff → Bool
  | some b => b.canTryNow
  | none => false

/-- Placeholder record for total lookups whose success is guaranteed by a
hypothesis. -/
def defaultValue : Value :=
  { version := 0, originatorId := "", value := none, ttl := 0, ttlVersion := 0 }

theorem advertiseAreaGo_spec (persisted : Key → Option Value)
    (pending : List Key) (bo : Key → Option ExponentialBackoff)
    (sent : List Key) (kvs : List (Key × Value))
    (hN : pending.Nodup)
    (hpres : ∀ k ∈ pending, (persisted k).isSome ∧ (bo k).isSome) :
    ∃ bo2, advertiseAreaGo persisted pending bo sent kvs =
      .ok (bo2, sent ++ pending.filter (fun k => canTryOf (bo k)),
        kvs ++ (pending.filter (fun k => canTryOf (bo k))).map
          (fun k => (k, (persisted k).getD defaultValue))) := by
  induction pending generalizing bo sent kvs with
  | nil => exact ⟨bo, by simp [advertiseAreaGo]⟩
  | cons k rest ih =>
    obtain ⟨hpk, hbk⟩ := hpres k (by simp)
    obtain ⟨v, hv⟩ := Option.isSome_iff_exists.mp hpk
    obtain ⟨b, hb⟩ := Option.isSome_iff_exists.mp hbk
    have hknr : k ∉ rest := (List.nodup_cons.mp hN).1
    have hNr : rest.Nodup := (List.nodup_cons.mp hN).2
    have hfk : canTryOf (bo k) = b.canTryNow := by rw [hb]; rfl
    by_cases hc : b.canTryNow
    · have hpres2 : ∀ k2 ∈ rest, (persisted k2).isSome ∧
          ((fun k2 => if k2 = k then some b.reportError else bo k2) k2).isSome := by
        intro k2 hk2
        have hme := hpres k2 (List.mem_cons_of_mem _ hk2)
        by_cases he : k2 = k
        · exact ⟨hme.1, by simp [he]⟩
        · simpa [he] using hme
      obtain ⟨bo2, hrec⟩ := ih _ (sent ++ [k]) (kvs ++ [(k, v)]) hNr hpres2
      have hfeq : rest.filter
          (fun k2 => canTryOf (if k2 = k then some b.reportError else bo k2)) =
          rest.filter (fun k2 => canTryOf (bo k2)) := by
        apply List.filter_congr
        intro x hx
        have hxk : ¬ x = k := fun he => hknr (he ▸ hx)
        simp [hxk]
      rw [hfeq] at hrec
      refine ⟨bo2, ?_⟩
      rw [advertiseAreaGo]
      simp only [hv, hb, if_pos hc]
      rw [hrec]
      have hfcons : (k :: rest).filter (fun k2 => canTryOf (bo k2)) =
          k :: rest.filter (fun k2 => canTryOf (bo k2)) := by
        rw [List.filter_cons]
        simp [hfk, hc]
      rw [hfcons]
      simp [hv, List.append_assoc]
    · obtain ⟨bo2, hrec⟩ := ih bo sent kvs hNr
        (fun k2 hk2 => hpres k2 (List.mem_cons_of_mem _ hk2))
      refine ⟨bo2, ?_⟩
      rw [advertiseAreaGo]
      simp only [hv, hb, if_neg hc]
      rw [hrec]
      have hfcons : (k :: rest).filter (fun k2 => canTryOf (bo k2)) =
          rest.filter (fun k2 => canTryOf (bo k2)) := by
        rw [List.filter_cons]
        simp [hfk, hc]
      rw [hfcons]

/-- C4: in the per-area body of `advertisePendingKeys`, exactly the pending
keys whose backoff allows a try now are batched (paired with their
persisted records) into the one store set-keys call; when that call
succeeds (or the batch is empty, in which case no call is made) exactly the
sent keys are removed from the Pending Advertise Set, and when it fails the
Pending Advertise Set is left unchanged for the timer to retry. -/
theorem advertiseOneArea_spec (env : Env) (area : Area)
    (persisted : Key → Option Value) (backoffs : Key → Option ExponentialBackoff)
    (pending : List Key) (hN : pending.Nodup)
    (hpres : ∀ k ∈ pending, (persisted k).isSome ∧ (backoffs k).isSome) :
    ∃ bo2,
      advertiseOneArea env area persisted backoffs pending =
        .ok ((if (setKeysHelper env area
              ((pending.filter (fun k => canTryOf (backoffs k))).map
                (fun k => (k, (persisted k).getD defaultValue)))).1 then
            pending.filter (fun k =>
              !((pending.filter (fun k2 => canTryOf (backoffs k2))).contains k))
          else pending),
          bo2,
          (setKeysHelper env area
            ((pending.filter (fun k => canTryOf (backoffs k))).map
              (fun k => (k, (persisted k).getD defaultValue)))).2) := by
  by_cases hemp : pending.isEmpty
  · refine ⟨backoffs, ?_⟩
    have hnil : pending = [] := List.isEmpty_iff.mp hemp
    subst hnil
    simp [advertiseOneArea, setKeysHelper]
  · obtain ⟨bo2, hgo⟩ := advertiseAreaGo_spec persisted pending backoffs [] [] hN hpres
    refine ⟨bo2, ?_⟩
    rw [advertiseOneArea, if_neg hemp]
    simp only [hgo, List.nil_append]

/-- Witness for C4 at a concrete input: one pending key with an active
backoff and a persisted record. -/
theorem advertiseOneArea_spec_w :
    (["k"] : List Key).Nodup ∧
    (∀ k ∈ (["k"] : List Key),
      ((fun k2 => if k2 = "k" then some pW else none) k).isSome ∧
      ((fun k2 => if k2 = "k" then some (ExponentialBackoff.mk0 kInitialBackoff kMaxBackoff) else none) k).isSome) ∧
    ∃ bo2,
      advertiseOneArea envW "a" (fun k2 => if k2 = "k" then some pW else none)
          (fun k2 => if k2 = "k" then some (ExponentialBackoff.mk0 kInitialBackoff kMaxBackoff) else none)
          ["k"] =
        .ok ((if (setKeysHelper envW "a"
              (((["k"] : List Key).filter (fun k => canTryOf ((fun k2 => if k2 = "k" then some (ExponentialBackoff.mk0 kInitialBackoff kMaxBackoff) else none) k))).map
                (fun k => (k, ((fun k2 => if k2 = "k" then some pW else none) k).getD defaultValue)))).1 then
            (["k"] : List Key).filter (fun k =>
              !(((["k"] : List Key).filter (fun k2 => canTryOf ((fun k3 => if k3 = "k" then some (ExponentialBackoff.mk0 kInitialBackoff kMaxBackoff) else none) k2))).contains k))
          else ["k"]),
          bo2,
          (setKeysHelper envW "a"
            (((["k"] : List Key).filter (fun k => canTryOf ((fun k2 => if k2 = "k" then some (ExponentialBackoff.mk0 kInitialBackoff kMaxBackoff) else none) k))).map
              (fun k => (k, ((fun k2 => if k2 = "k" then some pW else none) k).getD defaultValue)))).2) :=
  ⟨by decide, by decide,
    advertiseOneArea_spec envW "a" (fun k2 => if k2 = "k" then some pW else none)
      (fun k2 => if k2 = "k" then some (ExponentialBackoff.mk0 kInitialBackoff kMaxBackoff) else none)
      ["k"] (by decide) (by decide)⟩

/-! ### Reconciler characterization for a persisted key -/

theorem processKeyVal_persisted_eq (env : Env) (s : ClientState) (area : Area)
    (key : Key) (rcvd : Value) (current : Value) (p : String)
    (hp : s.persistedKeyVals area key = some current)
    (hv : rcvd.value = some p)
    (hnew : ¬ current.version > rcvd.version) :
    ((processKeyVal env s area key rcvd).1).persistedKeyVals area key =
      some (ttlMergeStage (ttlLookup s area key) rcvd
        (bumpStage env.nodeId current rcvd).1) ∧
    ((bumpStage env.nodeId current rcvd).2 = true →
      key ∈ pendingOf (processKeyVal env s area key rcvd).1 area) ∧
    ((bumpStage env.nodeId current rcvd).2 = true →
      s.keyCallbacks area key = true →
      Event.keyCallback key (some (ttlMergeStage (ttlLookup s area key) rcvd
        (bumpStage env.nodeId current rcvd).1)) ∈ (processKeyVal env s area key rcvd).2) := by
  cases hsk : ttlLookup s area key with
  | none =>
    simp only [processKeyVal, hv, hp, hsk, skAdjust, if_neg hnew, ite_self]
    refine ⟨?_, ?_, ?_⟩
    · split_ifs <;> simp [fset]
    · intro hb
      simp only [hb]
      split_ifs <;> simp [pendingOf, alookup_pendingInsert, mem_linsert]
    · intro hb hcb
      simp only [hb, hcb]
      split_ifs <;> simp_all
  | some e =>
    obtain ⟨skel, b⟩ := e
    simp only [processKeyVal, hv, hp, hsk, skAdjust, if_neg hnew]
    refine ⟨?_, ?_, ?_⟩
    · split_ifs <;> simp [fset]
    · intro hb
      simp only [hb]
      split_ifs <;> simp [pendingOf, alookup_pendingInsert, mem_linsert]
    · intro hb hcb
      simp only [hb, hcb]
      split_ifs <;> simp_all

/-- The `ttlVersion` the Reconciler leaves on a reasserted (bumped) record:
the TTL-table skeleton's `ttlVersion` when an entry exists (else the reset
0), raised to the received `ttlVersion` when that is higher. -/
def mergedTtlVersion (sk : Option TtlEntry) (rcvdTtl : Nat) : Nat :=
  Nat.max (match sk with | some e => e.1.ttlVersion | none => 0) rcvdTtl

theorem ttlMergeStage_bumped (sk : Option TtlEntry) (rcvd c : Value)
    (h0 : c.ttlVersion = 0) :
    ttlMergeStage sk rcvd c = { c with ttlVersion := mergedTtlVersion sk rcvd.ttlVersion } := by
  obtain ⟨cv, co, cva, ct, ctv⟩ := c
  simp only at h0
  subst h0
  unfold ttlMergeStage mergedTtlVersion
  cases sk with
  | none =>
    dsimp only
    split_ifs <;> simp [Value.mk.injEq] <;> omega
  | some e =>
    dsimp only
    split_ifs <;> simp [Value.mk.injEq] <;> omega

theorem ttlMergeStage_version (sk : Option TtlEntry) (rcvd c : Value) :
    (ttlMergeStage sk rcvd c).version = c.version := by
  unfold ttlMergeStage
  cases sk <;> dsimp only <;> split_ifs <;> rfl

theorem ttlMergeStage_originatorId (sk : Option TtlEntry) (rcvd c : Value) :
    (ttlMergeStage sk rcvd c).originatorId = c.originatorId := by
  unfold ttlMergeStage
  cases sk <;> dsimp only <;> split_ifs <;> rfl

theorem ttlMergeStage_ttlVersion_ge (sk : Option TtlEntry) (rcvd c : Value) :
    rcvd.ttlVersion ≤ (ttlMergeStage sk rcvd c).ttlVersion := by
  unfold ttlMergeStage
  cases sk <;> dsimp only <;> split_ifs <;> (try dsimp only) <;> omega

theorem bumpStage_lt (nodeId : String) (current rcvd : Value)
    (h : current.version < rcvd.version) :
    bumpStage nodeId current rcvd =
      ({ current with
          originatorId := nodeId
          version := rcvd.version + 1
          ttlVersion := 0 }, true) := by
  unfold bumpStage
  rw [if_pos h]

theorem bumpStage_foreign (nodeId : String) (current rcvd : Value)
    (h : ¬ current.version < rcvd.version)
    (ho : rcvd.originatorId ≠ nodeId) :
    bumpStage nodeId current rcvd =
      ({ current with
          originatorId := nodeId
          version := current.version + 1
          ttlVersion := 0 }, true) := by
  unfold bumpStage
  rw [if_neg h, if_pos ho]

theorem bumpStage_diverged (nodeId : String) (current rcvd : Value)
    (h : ¬ current.version < rcvd.version)
    (ho : rcvd.originatorId = nodeId) (hval : current.value ≠ rcvd.value) :
    bumpStage nodeId current rcvd =
      ({ current with
          originatorId := nodeId
          version := current.version + 1
          ttlVersion := 0 }, true) := by
  unfold bumpStage
  rw [if_neg h, if_neg (not_not_intro ho), if_pos hval]

theorem bumpStage_same (nodeId : String) (current rcvd : Value)
    (h : ¬ current.version < rcvd.version)
    (ho : rcvd.originatorId = nodeId) (hval : current.value = rcvd.value) :
    bumpStage nodeId current rcvd = (current, false) := by
  unfold bumpStage
  rw [if_neg h, if_neg (not_not_intro ho), if_neg (not_not_intro hval)]

/-! ### C1: reassertion dominates the received record -/

/-- C1 (amended): when a received payload-carrying record strictly
dominates a self-originated persisted record under the lexicographic
`(version, originatorId, ttlVersion)` order, the record persisted after the
Reconciler processes the entry dominates-or-ties the received record under
that order; the domination is moreover strict in every case except the
no-bump case — the received record tying the persisted one on `(version,
originatorId)` (i.e. winning only on `ttlVersion`) with an unchanged
payload — where the Reconciler merely adopts a `ttlVersion` at least the
received one and the records can tie (see the counterexample). -/
theorem reconcile_dominates_received (env : Env) (s : ClientState)
    (area : Area) (key : Key) (rcvd current : Value) (p : String)
    (hp : s.persistedKeyVals area key = some current)
    (ho : current.originatorId = env.nodeId)
    (hv : rcvd.value = some p)
    (hd : domLt current rcvd) :
    ∃ v2, (processKeyVal env s area key rcvd).1.persistedKeyVals area key = some v2 ∧
      domLe rcvd v2 ∧
      (¬ (current.version = rcvd.version ∧ rcvd.originatorId = env.nodeId ∧
          current.value = rcvd.value) → domLt rcvd v2) := by
  have hnew : ¬ current.version > rcvd.version := by
    rcases hd with h | ⟨h, _⟩ <;> omega
  obtain ⟨heq, -, -⟩ :=
    processKeyVal_persisted_eq env s area key rcvd current p hp hv hnew
  refine ⟨_, heq, ?_⟩
  by_cases hexc : current.version = rcvd.version ∧ rcvd.originatorId = env.nodeId ∧
      current.value = rcvd.value
  · obtain ⟨heqv, hor, hval⟩ := hexc
    have hlt : ¬ current.version < rcvd.version := by omega
    rw [bumpStage_same env.nodeId current rcvd hlt hor hval]
    dsimp only
    refine ⟨?_, fun hc => absurd ⟨heqv, hor, hval⟩ hc⟩
    have hver : (ttlMergeStage (ttlLookup s area key) rcvd current).version =
        rcvd.version := by rw [ttlMergeStage_version]; omega
    have horig : (ttlMergeStage (ttlLookup s area key) rcvd current).originatorId =
        rcvd.originatorId := by rw [ttlMergeStage_originatorId, ho, hor]
    have httl := ttlMergeStage_ttlVersion_ge (ttlLookup s area key) rcvd current
    rcases Nat.eq_or_lt_of_le httl with hteq | htlt
    · exact Or.inr ⟨hver.symm, horig.symm, hteq⟩
    · exact Or.inl (Or.inr ⟨hver.symm, Or.inr ⟨horig.symm, htlt⟩⟩)
  · have hstrict :
        domLt rcvd (ttlMergeStage (ttlLookup s area key) rcvd
          (bumpStage env.nodeId current rcvd).1) := by
      by_cases hlt : current.version < rcvd.version
      · refine Or.inl ?_
        rw [ttlMergeStage_version, bumpStage_lt env.nodeId current rcvd hlt]
        dsimp only
        omega
      · have heqv : current.version = rcvd.version := by
          rcases hd with h | ⟨h, _⟩ <;> omega
        by_cases hor : rcvd.originatorId = env.nodeId
        · have hval : current.value ≠ rcvd.value :=
            fun hv2 => hexc ⟨heqv, hor, hv2⟩
          refine Or.inl ?_
          rw [ttlMergeStage_version,
            bumpStage_diverged env.nodeId current rcvd hlt hor hval]
          dsimp only
          omega
        · refine Or.inl ?_
          rw [ttlMergeStage_version,
            bumpStage_foreign env.nodeId current rcvd hlt hor]
          dsimp only
          omega
    exact ⟨Or.inl hstrict, fun _ => hstrict⟩

/-- A foreign record with a higher version, used as concrete input. -/
def rForeign : Value :=
  { version := 2, originatorId := "B", value := some "w", ttl := 10, ttlVersion := 1 }

/-- A self-originated record that beats `pW` only on `ttlVersion`. -/
def rTie : Value :=
  { version := 1, originatorId := "A", value := some "v", ttl := 10, ttlVersion := 5 }

/-- Witness for C1 (amended) at a concrete input: a foreign record with a
higher version. -/
theorem reconcile_dominates_received_w :
    sW.persistedKeyVals "a" "k" = some pW ∧ pW.originatorId = envW.nodeId ∧
    rForeign.value = some "w" ∧ domLt pW rForeign ∧
    ∃ v2, (processKeyVal envW sW "a" "k" rForeign).1.persistedKeyVals "a" "k" = some v2 ∧
      domLe rForeign v2 ∧
      (¬ (pW.version = rForeign.version ∧ rForeign.originatorId = envW.nodeId ∧
          pW.value = rForeign.value) → domLt rForeign v2) :=
  ⟨by decide, by decide, by decide, Or.inl (by decide),
    reconcile_dominates_received envW sW "a" "k" rForeign pW "w"
      (by decide) (by decide) (by decide) (Or.inl (by decide))⟩

/-- Counterexample for C1 as stated: when the received record dominates the
persisted one only on `ttlVersion` (equal version and originator, equal
payload), the Reconciler adopts the received `ttlVersion` without any bump,
so the new persisted record merely ties the received record and does not
strictly dominate it. -/
theorem reconcile_dominates_received_cex :
    domLt pW rTie ∧ pW.originatorId = envW.nodeId ∧
    (processKeyVal envW sW "a" "k" rTie).1.persistedKeyVals "a" "k" = some rTie ∧
    ¬ domLt rTie rTie := by
  refine ⟨Or.inr ⟨rfl, Or.inr ⟨rfl, by decide⟩⟩, by decide, by decide, ?_⟩
  rintro (h | ⟨-, h | ⟨-, h⟩⟩)
  · exact absurd h (by decide)
  · exact absurd h (lt_irrefl _)
  · exact absurd h (by decide)

/-! ### C2: the three reassertion branches -/

/-- The record the Reconciler reasserts for a persisted key: one version
above the received version, self-originated, keeping the locally declared
payload and ttl, with the merged `ttlVersion`. -/
def reassertedRecord (env : Env) (s : ClientState) (area : Area) (key : Key)
    (rcvd current : Value) : Value :=
  { version := rcvd.version + 1, originatorId := env.nodeId,
    value := current.value, ttl := current.ttl,
    ttlVersion := mergedTtlVersion (ttlLookup s area key) rcvd.ttlVersion }

/-- C2 (amended): for a persisted key receiving a payload-carrying record,
(a) a strictly newer received version, (b) an equal version with a foreign
originator, and (c) an equal version, self originator and diverging payload
each leave the persisted record at `version = rcvd.version + 1`,
`originatorId = self`, the local payload and ttl, and a `ttlVersion` that
is first reset to 0 and then merged (TTL-table skeleton's value if an entry
exists, raised to the received `ttlVersion` when higher); in each case the
key joins the Pending Advertise Set and the per-key callback fires when
registered. -/
theorem reconcile_branch_cases (env : Env) (s : ClientState) (area : Area)
    (key : Key) (rcvd current : Value) (p : String)
    (hp : s.persistedKeyVals area key = some current)
    (hv : rcvd.value = some p) :
    (current.version < rcvd.version →
      (processKeyVal env s area key rcvd).1.persistedKeyVals area key =
        some (reassertedRecord env s area key rcvd current) ∧
      key ∈ pendingOf (processKeyVal env s area key rcvd).1 area ∧
      (s.keyCallbacks area key = true →
        Event.keyCallback key (some (reassertedRecord env s area key rcvd current)) ∈
          (processKeyVal env s area key rcvd).2)) ∧
    (current.version = rcvd.version → rcvd.originatorId ≠ env.nodeId →
      (processKeyVal env s area key rcvd).1.persistedKeyVals area key =
        some (reassertedRecord env s area key rcvd current) ∧
      key ∈ pendingOf (processKeyVal env s area key rcvd).1 area ∧
      (s.keyCallbacks area key = true →
        Event.keyCallback key (some (reassertedRecord env s area key rcvd current)) ∈
          (processKeyVal env s area key rcvd).2)) ∧
    (current.version = rcvd.version → rcvd.originatorId = env.nodeId →
        current.value ≠ rcvd.value →
      (processKeyVal env s area key rcvd).1.persistedKeyVals area key =
        some (reassertedRecord env s area key rcvd current) ∧
      key ∈ pendingOf (processKeyVal env s area key rcvd).1 area ∧
      (s.keyCallbacks area key = true →
        Event.keyCallback key (some (reassertedRecord env s area key rcvd current)) ∈
          (processKeyVal env s area key rcvd).2)) := by
  refine ⟨?_, ?_, ?_⟩
  · intro hlt
    have hnew : ¬ current.version > rcvd.version := by omega
    obtain ⟨heq, hpend, hcb⟩ :=
      processKeyVal_persisted_eq env s area key rcvd current p hp hv hnew
    have hbump := bumpStage_lt env.nodeId current rcvd hlt
    have hrec : ttlMergeStage (ttlLookup s area key) rcvd
        (bumpStage env.nodeId current rcvd).1 =
        reassertedRecord env s area key rcvd current := by
      rw [hbump]
      rw [ttlMergeStage_bumped _ _ _ rfl]
      rfl
    rw [hrec] at heq hcb
    exact ⟨heq, hpend (by rw [hbump]), hcb (by rw [hbump])⟩
  · intro heqv hor
    have hnew : ¬ current.version > rcvd.version := by omega
    obtain ⟨heq, hpend, hcb⟩ :=
      processKeyVal_persisted_eq env s area key rcvd current p hp hv hnew
    have hbump := bumpStage_foreign env.nodeId current rcvd (by omega) hor
    have hrec : ttlMergeStage (ttlLookup s area key) rcvd
        (bumpStage env.nodeId current rcvd).1 =
        reassertedRecord env s area key rcvd current := by
      rw [hbump]
      rw [ttlMergeStage_bumped _ _ _ rfl]
      unfold reassertedRecord
      rw [heqv]
    rw [hrec] at heq hcb
    exact ⟨heq, hpend (by rw [hbump]), hcb (by rw [hbump])⟩
  · intro heqv hor hval
    have hnew : ¬ current.version > rcvd.version := by omega
    obtain ⟨heq, hpend, hcb⟩ :=
      processKeyVal_persisted_eq env s area key rcvd current p hp hv hnew
    have hbump := bumpStage_diverged env.nodeId current rcvd (by omega) hor hval
    have hrec : ttlMergeStage (ttlLookup s area key) rcvd
        (bumpStage env.nodeId current rcvd).1 =
        reassertedRecord env s area key rcvd current := by
      rw [hbump]
      rw [ttlMergeStage_bumped _ _ _ rfl]
      unfold reassertedRecord
      rw [heqv]
    rw [hrec] at heq hcb
    exact ⟨heq, hpend (by rw [hbump]), hcb (by rw [hbump])⟩

/-- Witness for C2 at a concrete input (branch (a): newer received
version). -/
theorem reconcile_branch_cases_w :
    sW.persistedKeyVals "a" "k" = some pW ∧ rForeign.value = some "w" ∧
    pW.version < rForeign.version ∧
    ((processKeyVal envW sW "a" "k" rForeign).1.persistedKeyVals "a" "k" =
        some (reassertedRecord envW sW "a" "k" rForeign pW) ∧
      "k" ∈ pendingOf (processKeyVal envW sW "a" "k" rForeign).1 "a" ∧
      (sW.keyCallbacks "a" "k" = true →
        Event.keyCallback "k" (some (reassertedRecord envW sW "a" "k" rForeign pW)) ∈
          (processKeyVal envW sW "a" "k" rForeign).2)) :=
  ⟨by decide, by decide, by decide,
    (reconcile_branch_cases envW sW "a" "k" rForeign pW "w"
      (by decide) (by decide)).1 (by decide)⟩

/-- The record the code actually persists in the counterexample below. -/
def vCex : Value :=
  { version := 3, originatorId := "A", value := some "v", ttl := 10, ttlVersion := 1 }

/-- Counterexample for C2 as stated: with `persisted.version <
rcvd.version` the claim asserts the new record's `ttlVersion` is 0, but the
Reconciler afterwards adopts the (higher) received `ttlVersion`: here the
final record carries `ttlVersion = 1`. -/
theorem reconcile_branch_cases_cex :
    pW.version < rForeign.version ∧
    (processKeyVal envW sW "a" "k" rForeign).1.persistedKeyVals "a" "k" = some vCex ∧
    vCex.ttlVersion ≠ 0 := by
  refine ⟨by decide, by decide, by decide⟩

/-! ### C6: catch-all callback invocations per publication -/

/-- The value-carrying catch-all callback invocations of a trace, in
order. -/
def kvSomeCalls : List Event → List (Key × Value)
  | [] => []
  | Event.kvCallback k (some v) :: t => (k, v) :: kvSomeCalls t
  | Event.kvCallback _ none :: t => kvSomeCalls t
  | Event.setKeyVals _ _ :: t => kvSomeCalls t
  | Event.getKeyVals _ _ :: t => kvSomeCalls t
  | Event.keyCallback _ _ :: t => kvSomeCalls t
  | Event.filterCallback _ _ :: t => kvSomeCalls t

theorem kvSomeCalls_append (l1 l2 : List Event) :
    kvSomeCalls (l1 ++ l2) = kvSomeCalls l1 ++ kvSomeCalls l2 := by
  induction l1 with
  | nil => rfl
  | cons hd t ih =>
    cases hd with
    | kvCallback k v => cases v <;> simp [kvSomeCalls, ih]
    | setKeyVals a kv => simp [kvSomeCalls, ih]
    | getKeyVals a k => simp [kvSomeCalls, ih]
    | keyCallback k v => simp [kvSomeCalls, ih]
    | filterCallback k v => simp [kvSomeCalls, ih]

theorem skAdjust_of_persisted_some (s : ClientState) (area : Area) (key : Key)
    (rcvd current : Value) (hit : s.persistedKeyVals area key = some current) :
    skAdjust s area key rcvd = s := by
  cases hsk : ttlLookup s area key with
  | none => simp [skAdjust, hsk, hit]
  | some e => obtain ⟨skel, b⟩ := e; simp [skAdjust, hsk, hit]

theorem kvSomeCalls_processKeyVal (env : Env) (s : ClientState) (area : Area)
    (key : Key) (rcvd : Value) :
    kvSomeCalls (processKeyVal env s area key rcvd).2 =
      if s.kvCallbackSet = true ∧ rcvd.value.isSome then [(key, rcvd)] else [] := by
  cases hv : rcvd.value with
  | none => simp [processKeyVal, hv, kvSomeCalls]
  | some p =>
    cases hit : s.persistedKeyVals area key with
    | none =>
      simp only [processKeyVal, hv, hit]
      split_ifs <;>
        simp_all [kvSomeCalls_append, kvSomeCalls]
    | some current =>
      simp only [processKeyVal, hv, hit]
      split_ifs <;>
        simp_all [kvSomeCalls_append, kvSomeCalls]

theorem processKeyVal_kvCallbackSet (env : Env) (s : ClientState) (area : Area)
    (key : Key) (rcvd : Value) :
    (processKeyVal env s area key rcvd).1.kvCallbackSet = s.kvCallbackSet := by
  cases hv : rcvd.value with
  | none => simp [processKeyVal, hv]
  | some p =>
    cases hit : s.persistedKeyVals area key with
    | none =>
      simp only [processKeyVal, hv, hit]
      exact skAdjust_kvCallbackSet s area key rcvd
    | some current =>
      cases hsk : ttlLookup s area key with
      | none =>
        simp only [processKeyVal, hv, hit, hsk,
          skAdjust_of_persisted_some s area key rcvd current hit]
        split_ifs <;> rfl
      | some e =>
        obtain ⟨skel, b⟩ := e
        simp only [processKeyVal, hv, hit, hsk,
          skAdjust_of_persisted_some s area key rcvd current hit]
        split_ifs <;> rfl

theorem kvSomeCalls_processKeyVals (env : Env) (area : Area)
    (l : List (Key × Value)) (s : ClientState) (hset : s.kvCallbackSet = true) :
    kvSomeCalls (processKeyVals env area s l).2 =
      l.filter (fun q => q.2.value.isSome) := by
  induction l generalizing s with
  | nil => rfl
  | cons hd t ih =>
    obtain ⟨k, v⟩ := hd
    simp only [processKeyVals]
    rw [kvSomeCalls_append, kvSomeCalls_processKeyVal,
      ih _ (by rw [processKeyVal_kvCallbackSet]; exact hset), List.filter_cons]
    by_cases hvs : v.value.isSome <;> simp [hset, hvs]

theorem kvSomeCalls_setKeysHelper (env : Env) (area : Area)
    (kvs : List (Key × Value)) :
    kvSomeCalls (setKeysHelper env area kvs).2 = [] := by
  unfold setKeysHelper
  split <;> rfl

theorem advertiseOneArea_kvSomeCalls (env : Env) (area : Area)
    (persisted : Key → Option Value) (backoffs : Key → Option ExponentialBackoff)
    (pending : List Key) (p2 : List Key)
    (bo : Key → Option ExponentialBackoff) (evs : List Event)
    (h : advertiseOneArea env area persisted backoffs pending = .ok (p2, bo, evs)) :
    kvSomeCalls evs = [] := by
  unfold advertiseOneArea at h
  split at h
  · cases h
    rfl
  · cases hgo : advertiseAreaGo persisted pending backoffs [] [] with
    | error e => simp only [hgo] at h; cases h
    | ok r =>
      obtain ⟨bo2, sent, kvs⟩ := r
      simp only [hgo] at h
      cases h
      exact kvSomeCalls_setKeysHelper env area kvs

theorem advertisePendingGo_kvSomeCalls (env : Env)
    (persisted : Area → Key → Option Value) (m : List (Area × List Key))
    (bo : Area → Key → Option ExponentialBackoff)
    (m2 : List (Area × List Key)) (bo2 : Area → Key → Option ExponentialBackoff)
    (evs : List Event)
    (h : advertisePendingGo env persisted m bo = .ok (m2, bo2, evs)) :
    kvSomeCalls evs = [] := by
  induction m generalizing bo m2 evs with
  | nil =>
    cases h
    rfl
  | cons hd rest ih =>
    obtain ⟨area, pending⟩ := hd
    rw [advertisePendingGo] at h
    cases hone : advertiseOneArea env area (persisted area) (bo area) pending with
    | error e => simp only [hone] at h; cases h
    | ok r =>
      obtain ⟨pending2, boArea, evs1⟩ := r
      simp only [hone] at h
      cases hrec : advertisePendingGo env persisted rest
          (fun a2 => if a2 = area then boArea else bo a2) with
      | error e3 => simp only [hrec] at h; cases h
      | ok r2 =>
        obtain ⟨rest2, bo3, evs2⟩ := r2
        simp only [hrec] at h
        cases h
        rw [kvSomeCalls_append,
          advertiseOneArea_kvSomeCalls env area _ _ pending _ _ _ hone,
          ih _ _ _ hrec]
        rfl

theorem advertisePendingKeys_kvSomeCalls (env : Env) (s : ClientState)
    (s2 : ClientState) (evs : List Event)
    (h : advertisePendingKeys env s = .ok (s2, evs)) : kvSomeCalls evs = [] := by
  unfold advertisePendingKeys at h
  cases hgo : advertisePendingGo env s.persistedKeyVals s.keysToAdvertise s.backoffs with
  | error e => simp only [hgo] at h; cases h
  | ok r =>
    obtain ⟨pend2, bo2, evs2⟩ := r
    simp only [hgo] at h
    cases h
    exact advertisePendingGo_kvSomeCalls env _ _ _ _ _ _ hgo

theorem kvSomeCalls_processExpiredKeys (s : ClientState) (area : Area)
    (l : List Key) : kvSomeCalls (processExpiredKeys s area l) = [] := by
  induction l with
  | nil => rfl
  | cons k t ih =>
    simp only [processExpiredKeys]
    rw [kvSomeCalls_append, kvSomeCalls_append, ih]
    split_ifs <;> simp [kvSomeCalls]

/-- C6 (amended): with the catch-all callback installed, processing a
publication invokes it with a value exactly once per entry of the
publication's `keyVals` map whose payload is present, in order; entries
with absent payload (TTL-only updates) are skipped before the callback
fires. -/
theorem processPublication_catch_all (env : Env) (s : ClientState)
    (pub : Publication) (s2 : ClientState) (tr : List Event)
    (hset : s.kvCallbackSet = true)
    (h : processPublication env s pub = .ok (s2, tr)) :
    kvSomeCalls tr = pub.keyVals.filter (fun q => q.2.value.isSome) := by
  unfold processPublication at h
  split at h
  · cases h
  · cases hap : advertisePendingKeys env (processKeyVals env pub.area s pub.keyVals).1 with
    | error e => simp only [hap] at h; cases h
    | ok r =>
      obtain ⟨s3, evs3⟩ := r
      simp only [hap, Except.ok.injEq, Prod.mk.injEq] at h
      obtain ⟨h1, h2⟩ := h
      subst h2
      rw [kvSomeCalls_append, kvSomeCalls_append,
        kvSomeCalls_processKeyVals env pub.area pub.keyVals s hset,
        advertisePendingKeys_kvSomeCalls env _ _ _ hap]
      have hexp : kvSomeCalls (if pub.expiredKeys.isEmpty then []
          else processExpiredKeys s3 pub.area pub.expiredKeys) = [] := by
        split
        · rfl
        · exact kvSomeCalls_processExpiredKeys s3 pub.area pub.expiredKeys
      rw [hexp]
      simp

/-- A TTL-only (payload-absent) received record. -/
def rTtlOnly : Value :=
  { version := 1, originatorId := "B", value := none, ttl := 10, ttlVersion := 3 }

/-- A publication carrying one payload entry and one TTL-only entry. -/
def pubW : Publication :=
  { area := "a", keyVals := [("k", pW), ("t", rTtlOnly)], expiredKeys := [] }

/-- Witness for C6 (amended) at `pubW`. -/
theorem processPublication_catch_all_w :
    sEmpty.kvCallbackSet = true ∧
    kvSomeCalls ((processPublication envW sEmpty pubW).toOption.getD (sEmpty, [])).2 =
      pubW.keyVals.filter (fun q => q.2.value.isSome) :=
  ⟨rfl, processPublication_catch_all envW sEmpty pubW _ _ rfl rfl⟩

/-- A publication whose single entry is TTL-only. -/
def pubTtlOnly : Publication :=
  { area := "a", keyVals := [("t", rTtlOnly)], expiredKeys := [] }

/-- Counterexample for C6 as stated: with the catch-all installed, a
publication whose single entry is a TTL-only update (payload absent)
produces no callback invocation at all — the whole trace is empty — rather
than one catch-all invocation per received entry. -/
theorem processPublication_catch_all_cex :
    sEmpty.kvCallbackSet = true ∧
    (match processPublication envW sEmpty pubTtlOnly with
      | .ok r => r.2.length
      | .error _ => 7) = 0 ∧
    pubTtlOnly.keyVals.length = 1 := by
  refine ⟨rfl, ?_, rfl⟩
  decide

/-! ### C5: every pending key is persisted -/

/-- The cross-table invariant: every key of every area's Pending Advertise
Set has an entry in that area's Persisted Key Table. -/
def Inv (s : ClientState) : Prop :=
  ∀ a k, k ∈ pendingOf s a → (s.persistedKeyVals a k).isSome

theorem skAdjust_inv (s : ClientState) (area : Area) (key : Key)
    (rcvd : Value) (hInv : Inv s) : Inv (skAdjust s area key rcvd) := by
  intro a k hk
  rw [skAdjust_persisted]
  apply hInv
  unfold pendingOf at hk ⊢
  rwa [skAdjust_pending] at hk

theorem processKeyVal_state_not_persisted (env : Env) (s : ClientState)
    (area : Area) (key : Key) (rcvd : Value) (p : String)
    (hv : rcvd.value = some p) (hit : s.persistedKeyVals area key = none) :
    (processKeyVal env s area key rcvd).1 = skAdjust s area key rcvd := by
  simp [processKeyVal, hv, hit]

theorem inv_fset_insert (s : ClientState) (area : Area) (key : Key)
    (cur : Value) (hInv : Inv s) (a : Area) (k : Key)
    (hk : k ∈ (alookup (pendingInsert s.keysToAdvertise area key) a).getD []) :
    (fset s.persistedKeyVals area key cur a k).isSome := by
  by_cases ha : a = area
  · subst ha
    rw [alookup_pendingInsert] at hk
    simp only [Option.getD_some] at hk
    rcases (mem_linsert _ _ _).mp hk with hk2 | hk2
    · by_cases hkk : k = key
      · subst hkk
        simp [fset]
      · have h3 := hInv a k hk2
        simp only [fset]
        rw [if_neg (by intro hand; exact hkk hand.2)]
        exact h3
    · subst hk2
      simp [fset]
  · have h3 := hInv a k (by
      show k ∈ (alookup s.keysToAdvertise a).getD []
      rwa [alookup_pendingInsert_ne _ _ _ _ ha] at hk)
    simp only [fset]
    rw [if_neg (by intro hand; exact ha hand.1)]
    exact h3

theorem inv_fset_noinsert (s : ClientState) (area : Area) (key : Key)
    (cur : Value) (hInv : Inv s) (a : Area) (k : Key)
    (hk : k ∈ pendingOf s a) :
    (fset s.persistedKeyVals area key cur a k).isSome := by
  by_cases h : a = area ∧ k = key
  · simp [fset, h]
  · simp only [fset, if_neg h]
    exact hInv a k hk

theorem processKeyVal_inv (env : Env) (s : ClientState) (area : Area)
    (key : Key) (rcvd : Value) (hInv : Inv s) :
    Inv (processKeyVal env s area key rcvd).1 := by
  cases hv : rcvd.value with
  | none => simpa [processKeyVal, hv] using hInv
  | some p =>
    cases hit : s.persistedKeyVals area key with
    | none =>
      rw [processKeyVal_state_not_persisted env s area key rcvd p hv hit]
      exact skAdjust_inv s area key rcvd hInv
    | some current =>
      cases hsk : ttlLookup s area key with
      | none =>
        simp only [processKeyVal, hv, hit, hsk,
          skAdjust_of_persisted_some s area key rcvd current hit]
        split_ifs <;> intro a k hk <;>
          first
          | exact hInv a k hk
          | exact inv_fset_insert s area key _ hInv a k hk
          | exact inv_fset_noinsert s area key _ hInv a k hk
      | some e =>
        obtain ⟨skel, b⟩ := e
        simp only [processKeyVal, hv, hit, hsk,
          skAdjust_of_persisted_some s area key rcvd current hit]
        split_ifs <;> intro a k hk <;>
          first
          | exact hInv a k hk
          | exact inv_fset_insert s area key _ hInv a k hk
          | exact inv_fset_noinsert s area key _ hInv a k hk

theorem processKeyVals_inv (env : Env) (area : Area) (l : List (Key × Value)) :
    ∀ s : ClientState, Inv s → Inv (processKeyVals env area s l).1 := by
  induction l with
  | nil => exact fun s h => h
  | cons hd t ih =>
    intro s h
    obtain ⟨k, v⟩ := hd
    exact ih _ (processKeyVal_inv env s area k v h)

theorem advertiseOneArea_subset (env : Env) (area : Area)
    (persisted : Key → Option Value) (backoffs : Key → Option ExponentialBackoff)
    (pending p2 : List Key) (bo : Key → Option ExponentialBackoff)
    (evs : List Event)
    (h : advertiseOneArea env area persisted backoffs pending = .ok (p2, bo, evs)) :
    ∀ k ∈ p2, k ∈ pending := by
  unfold advertiseOneArea at h
  split at h
  · cases h
    exact fun k hk => hk
  · cases hgo : advertiseAreaGo persisted pending backoffs [] [] with
    | error e => simp only [hgo] at h; cases h
    | ok r =>
      obtain ⟨bo2, sent, kvs⟩ := r
      simp only [hgo, Except.ok.injEq, Prod.mk.injEq] at h
      obtain ⟨h1, h2, h3⟩ := h
      subst h1
      intro k hk
      split at hk
      · exact (List.mem_filter.mp hk).1
      · exact hk

theorem advertisePendingGo_subset (env : Env)
    (persisted : Area → Key → Option Value) (m : List (Area × List Key))
    (bo : Area → Key → Option ExponentialBackoff)
    (m2 : List (Area × List Key)) (bo2 : Area → Key → Option ExponentialBackoff)
    (evs : List Event)
    (h : advertisePendingGo env persisted m bo = .ok (m2, bo2, evs)) :
    ∀ a k, k ∈ (alookup m2 a).getD [] → k ∈ (alookup m a).getD [] := by
  induction m generalizing bo m2 bo2 evs with
  | nil =>
    cases h
    exact fun a k hk => hk
  | cons hd rest ih =>
    obtain ⟨area, pending⟩ := hd
    rw [advertisePendingGo] at h
    cases hone : advertiseOneArea env area (persisted area) (bo area) pending with
    | error e => simp only [hone] at h; cases h
    | ok r =>
      obtain ⟨pending2, boArea, evs1⟩ := r
      simp only [hone] at h
      cases hrec : advertisePendingGo env persisted rest
          (fun a2 => if a2 = area then boArea else bo a2) with
      | error e3 => simp only [hrec] at h; cases h
      | ok r2 =>
        obtain ⟨rest2, bo3, evs2⟩ := r2
        simp only [hrec, Except.ok.injEq, Prod.mk.injEq] at h
        obtain ⟨h1, h2, h3⟩ := h
        subst h1
        subst h2
        intro a k hk
        show k ∈ (alookup ((area, pending) :: rest) a).getD []
        by_cases ha : area = a
        · subst ha
          have e1 : alookup ((area, pending2) :: rest2) area = some pending2 := by
            simp [alookup]
          have e2 : alookup ((area, pending) :: rest) area = some pending := by
            simp [alookup]
          rw [e1] at hk
          rw [e2]
          simp only [Option.getD_some] at hk ⊢
          exact advertiseOneArea_subset env area _ _ pending _ _ _ hone k hk
        · have e1 : alookup ((area, pending2) :: rest2) a = alookup rest2 a := by
            simp [alookup, ha]
          have e2 : alookup ((area, pending) :: rest) a = alookup rest a := by
            simp [alookup, ha]
          rw [e1] at hk
          rw [e2]
          exact ih _ _ _ _ hrec a k hk

theorem advertisePendingKeys_inv (env : Env) (s : ClientState)
    (s2 : ClientState) (evs : List Event)
    (h : advertisePendingKeys env s = .ok (s2, evs)) (hInv : Inv s) : Inv s2 := by
  unfold advertisePendingKeys at h
  cases hgo : advertisePendingGo env s.persistedKeyVals s.keysToAdvertise s.backoffs with
  | error e => simp only [hgo] at h; cases h
  | ok r =>
    obtain ⟨pend2, bo2, evs2⟩ := r
    simp only [hgo, Except.ok.injEq, Prod.mk.injEq] at h
    obtain ⟨h1, h2⟩ := h
    subst h1
    intro a k hk
    exact hInv a k (advertisePendingGo_subset env _ _ _ _ _ _ hgo a k hk)

theorem scheduleTtlUpdates_inv (env : Env) (s : ClientState) (area : Area)
    (key : Key) (v tv : Nat) (ttl : Int) (ai : Bool) (hInv : Inv s) :
    Inv (scheduleTtlUpdates env s area key v tv ttl ai).1 := by
  intro a k hk
  rw [scheduleTtlUpdates_persisted]
  apply hInv
  unfold pendingOf at hk ⊢
  rwa [scheduleTtlUpdates_pending] at hk

theorem persistWrite_inv (env : Env) (s : ClientState) (area : Area)
    (key : Key) (tv : Value) (vc : Bool) (hInv : Inv s) :
    Inv (persistWrite env s area key tv vc) := by
  unfold persistWrite
  split_ifs <;> intro a k hk
  · exact inv_fset_insert s area key tv hInv a k hk
  · exact inv_fset_noinsert s area key tv hInv a k hk

theorem persistFinish_inv (env : Env) (sw : ClientState) (area : Area)
    (key : Key) (v tvn : Nat) (ttl : Int) (htc : Bool) (evPre : List Event)
    (r : Bool × ClientState × List Event)
    (h : persistFinish env sw area key v tvn ttl htc evPre = .ok r)
    (hInv : Inv sw) : Inv r.2.1 := by
  unfold persistFinish at h
  cases hap : advertisePendingKeys env sw with
  | error e => simp only [hap] at h; cases h
  | ok p =>
    obtain ⟨s3, ev2⟩ := p
    simp only [hap] at h
    injection h with h2
    subst h2
    exact scheduleTtlUpdates_inv env s3 area key v tvn ttl htc
      (advertisePendingKeys_inv env sw s3 ev2 hap hInv)

theorem persistKey_inv (env : Env) (s : ClientState) (area : Area) (key : Key)
    (value : String) (ttl : Int) (r : Bool × ClientState × List Event)
    (h : persistKey env s area key value ttl = .ok r) (hInv : Inv s) :
    Inv r.2.1 := by
  cases hit : s.persistedKeyVals area key with
  | some cached =>
    simp only [persistKey, hit] at h
    split at h
    · injection h with h2
      subst h2
      exact hInv
    · simp only [persistKeyRest] at h
      exact persistFinish_inv env _ area key _ _ ttl _ _ r h
        (persistWrite_inv env s area key _ _ hInv)
  | none =>
    simp only [persistKey, hit, persistKeyRest] at h
    exact persistFinish_inv env _ area key _ _ ttl _ _ r h
      (persistWrite_inv env s area key _ _ hInv)

theorem mem_getD_pendingErase (m : List (Area × List Key))
    (a area key k : String)
    (hk : k ∈ (alookup (pendingErase m area key) a).getD []) :
    k ∈ (alookup m a).getD [] ∧ (a = area → k ≠ key) := by
  by_cases ha : a = area
  · subst ha
    rw [alookup_pendingErase] at hk
    cases hm : alookup m a with
    | none =>
      rw [hm] at hk
      simp at hk
    | some l =>
      rw [hm] at hk
      simp only [Option.map_some', Option.getD_some] at hk
      have h2 := (mem_lerase l key k).mp hk
      simp only [Option.getD_some]
      exact ⟨h2.1, fun _ => h2.2⟩
  · rw [alookup_pendingErase_ne _ _ _ _ ha] at hk
    exact ⟨hk, fun h => absurd h ha⟩

theorem unsetKey_inv (s : ClientState) (area : Area) (key : Key)
    (hInv : Inv s) : Inv (unsetKey s area key).1 := by
  intro a k hk
  have hk2 : k ∈ (alookup (pendingErase s.keysToAdvertise area key) a).getD [] := hk
  obtain ⟨h1, h2⟩ := mem_getD_pendingErase s.keysToAdvertise a area key k hk2
  show (fdel s.persistedKeyVals area key a k).isSome
  by_cases hand : a = area ∧ k = key
  · exact absurd hand.2 (h2 hand.1)
  · simp only [fdel, if_neg hand]
    exact hInv a k h1

theorem clearKey_state (env : Env) (s : ClientState) (area : Area) (key : Key)
    (kv : String) (ttl : Int) :
    (clearKey env s area key kv ttl).1 = (unsetKey s area key).1 := by
  cases hg : env.storeGet area key <;> simp [clearKey, getKeyStore, hg]

theorem processPublication_inv (env : Env) (s : ClientState)
    (pub : Publication) (r : ClientState × List Event)
    (h : processPublication env s pub = .ok r) (hInv : Inv s) : Inv r.1 := by
  simp only [processPublication] at h
  split at h
  · cases h
  · cases hap : advertisePendingKeys env (processKeyVals env pub.area s pub.keyVals).1 with
    | error e => simp only [hap] at h; cases h
    | ok p =>
      obtain ⟨s3, ev⟩ := p
      simp only [hap] at h
      injection h with h2
      subst h2
      exact advertisePendingKeys_inv env _ s3 ev hap
        (processKeyVals_inv env pub.area pub.keyVals s hInv)

/-- C5: every operation that mutates the tables — `persistKey`, `unsetKey`,
`clearKey`, `processPublication` and `advertisePendingKeys` — preserves the
invariant that every key of an area's Pending Advertise Set is present in
that area's Persisted Key Table; as the tables start empty, the invariant
holds in every reachable state. -/
theorem pending_subset_persisted (env : Env) (s : ClientState) (area : Area)
    (key : Key) (value kv : String) (ttl : Int) (pub : Publication)
    (hInv : Inv s) :
    (∀ r, persistKey env s area key value ttl = .ok r → Inv r.2.1) ∧
    Inv (unsetKey s area key).1 ∧
    Inv (clearKey env s area key kv ttl).1 ∧
    (∀ r, processPublication env s pub = .ok r → Inv r.1) ∧
    (∀ r, advertisePendingKeys env s = .ok r → Inv r.1) := by
  refine ⟨fun r h => persistKey_inv env s area key value ttl r h hInv,
    unsetKey_inv s area key hInv, ?_,
    fun r h => processPublication_inv env s pub r h hInv,
    fun r h => advertisePendingKeys_inv env s r.1 r.2 h hInv⟩
  rw [clearKey_state]
  exact unsetKey_inv s area key hInv

/-- Witness for C5 at a concrete persisted state and publication. -/
theorem pending_subset_persisted_w :
    Inv sW ∧
    ((∀ r, persistKey envW sW "a" "k" "w" 10 = .ok r → Inv r.2.1) ∧
    Inv (unsetKey sW "a" "k").1 ∧
    Inv (clearKey envW sW "a" "k" "" 10).1 ∧
    (∀ r, processPublication envW sW pubW = .ok r → Inv r.1) ∧
    (∀ r, advertisePendingKeys envW sW = .ok r → Inv r.1)) := by
  have hInv : Inv sW := by
    intro a k hk
    simp [pendingOf, sW, sEmpty, alookup] at hk
  exact ⟨hInv, pending_subset_persisted envW sW "a" "k" "w" "" 10 pubW hInv⟩

end Openr
